import Mathlib

/-!
Verification of the workflow orchestration engine (api-automation-platform).

Shallow embedding of the Python sources under src/: Python dicts become
association lists (or functions where only pointwise reads occur), raised
exceptions become Except values, async functions become pure functions of
their inputs, and unbounded while/recursion becomes structural recursion on
an explicit fuel argument that is provably sufficient (the fuel-exhausted
branch is unreachable for the bounds the top-level wrappers pass).
-/

/-- A Python value as the engine passes it around: None, bools, ints,
strings, dicts (association lists in insertion order, keys unique) and
lists. -/
inductive Value where
  | null : Value
  | b : Bool → Value
  | i : Int → Value
  | s : String → Value
  | dict : List (String × Value) → Value
  | arr : List Value → Value

/-- Python dict read `m[k]` / `m.get(k)`: the first entry with key `k`
(keys are unique in a Python dict, so first = only). -/
def lookupA {α : Type} (m : List (String × α)) (k : String) : Option α :=
  (m.find? (fun p => p.1 = k)).map Prod.snd

/-- Python dict assignment `m[k] = v`: overwrite the existing entry in
place, else append at the end (dict insertion order). -/
def setAssoc {α : Type} (m : List (String × α)) (k : String) (v : α) :
    List (String × α) :=
  match m with
  | [] => [(k, v)]
  | (k2, v2) :: rest =>
      if k2 = k then (k2, v) :: rest else (k2, v2) :: setAssoc rest k v

theorem lookupA_setAssoc_self {α : Type} (m : List (String × α)) (k : String) (v : α) :
    lookupA (setAssoc m k v) k = some v := by
  induction m with
  | nil => simp [setAssoc, lookupA, List.find?]
  | cons hd tl ih =>
      obtain ⟨k2, v2⟩ := hd
      by_cases h : k2 = k
      · simp [setAssoc, h, lookupA, List.find?]
      · simpa [setAssoc, h, lookupA, List.find?] using ih

theorem lookupA_setAssoc_ne {α : Type} (m : List (String × α)) (k k2 : String) (v : α)
    (h : k2 ≠ k) : lookupA (setAssoc m k v) k2 = lookupA m k2 :=  by
  induction m with
  | nil =>
      have hk : k ≠ k2 := fun h2 => h h2.symm
      simp [setAssoc, lookupA, List.find?, hk]
  | cons hd tl ih =>
      obtain ⟨k3, v3⟩ := hd
      by_cases h3 : k3 = k
      · subst h3
        have hk : k3 ≠ k2 := fun h2 => h h2.symm
        simp [setAssoc, lookupA, List.find?, hk]
      · by_cases h4 : k3 = k2
        · subst h4
          simp [setAssoc, h3, lookupA, List.find?]
        · simpa [setAssoc, h3, lookupA, List.find?, h4] using ih

/-! ## Dotted-path output extraction
workflow_engine.py, `_prepare_node_input` lines 692-704 and
`_prepare_workflow_output` lines 750-760: the same loop appears verbatim in
both places, so it is embedded once.

    parts = output_path.split('.')
    value = source_result
    for part in parts:
        if isinstance(value, dict) and part in value:
            value = value[part]
        else:
            value = None
            break
-/

/-- Python `path.split('.')` on the character list of the path (String.splitOn
is extensionally the same but is not kernel-reducible, so the split is spelled
out structurally): "a.b" gives ["a", "b"], "" gives [""]. -/
def splitOnChar (c : Char) : List Char → List (List Char)
  | [] => [[]]
  | x :: rest =>
      match splitOnChar c rest with
      | [] => if x = c then [[], []] else [[x]]
      | h :: t => if x = c then [] :: h :: t else (x :: h) :: t

/-- The split path parts as strings. -/
def splitPathDots (path : String) : List String :=
  (splitOnChar (Char.ofNat 46) path.data).map String.mk

/-- The extraction loop over the split path parts: a failed step sets the
value to None and breaks out of the loop. -/
def extractParts : List String → Value → Value
  | [], v => v
  | p :: rest, v =>
      match v with
      | .dict kvs =>
          match lookupA kvs p with
          | some w => extractParts rest w
          | none => .null
      | _ => .null

/-- Dotted-path extraction as both engine call sites run it: split the path
on dots, then walk the parts. -/
def extractOutputPath (result : Value) (outputPath : String) : Value :=
  extractParts (splitPathDots outputPath) result

/-- Modelled from the claim wording, for comparison with the code loop: the
strict walk that succeeds only when every path step resolves to a key of a
dict. -/
def specPathLookup : List String → Value → Option Value
  | [], v => some v
  | p :: rest, v =>
      match v with
      | .dict kvs =>
          match lookupA kvs p with
          | some w => specPathLookup rest w
          | none => none
      | _ => none

theorem extractParts_eq_specPathLookup (parts : List String) (v : Value) :
    extractParts parts v = (specPathLookup parts v).getD .null := by
  induction parts generalizing v with
  | nil => rfl
  | cons p rest ih =>
      cases v with
      | dict kvs =>
          cases h : lookupA kvs p with
          | none => simp [extractParts, specPathLookup, h]
          | some w => simp [extractParts, specPathLookup, h, ih]
      | null => rfl
      | b _ => rfl
      | i _ => rfl
      | s _ => rfl
      | arr _ => rfl

/-- Claim C4: dotted-path extraction is total: extracting "a.b" from the
result  a maps-to  b maps-to 5  yields 5; and for every result value and
every path, the extraction equals the strict walk when every step resolves
to a dict key and yields null otherwise. Being a total Lean function of its
two arguments, it never raises. -/
theorem extraction_total_and_null_on_missing :
    extractOutputPath (.dict [("a", .dict [("b", .i 5)])]) "a.b" = .i 5
    ∧ (∀ (v : Value) (path : String),
        extractOutputPath v path =
          (specPathLookup (splitPathDots path) v).getD .null) := by
  constructor
  · rfl
  · intro v path
    exact extractParts_eq_specPathLookup (splitPathDots path) v

/-! ## Retry policy
utils/retry_mechanism.py, `retry_with_backoff` lines 42-85 (`async_wrapper`;
`sync_wrapper` lines 87-131 is the same logic with a blocking sleep).
The wrapped callable is modelled as `f : Nat -> Except e a` giving the
outcome of its k-th invocation (0-based); the backoff sleep and the jitter
do not affect which result is returned and are not modelled.  The `while
True` loop recurses on fuel; a retry needs `attempt + 1 < retries`, so fuel
`retries` (what `retryCall` passes) is enough and the fuel-0 fallthrough is
unreachable. -/

/-- One run of the retry loop from a given attempt counter.  Returns the
propagated result together with how many times the wrapped function was
invoked in total.
`retryOn e` models `except exceptions as e` (whether the raised exception
matches the `retry_on` tuple; an unmatched exception propagates at once),
`retryIf` the optional `retry_if` predicate that replaces `should_retry`. -/
def retryGo (retryOn : String → Bool) (retryIf : Option (String → Bool))
    (retries : Nat) (f : Nat → Except String Value) :
    Nat → Nat → Except String Value × Nat
  | fuel, attempt =>
      match f attempt with
      | .ok a => (.ok a, attempt + 1)
      | .error e =>
          if retryOn e then
            -- attempt += 1; should_retry = attempt < retries, then retry_if
            if (attempt + 1 < retries) &&
                (match retryIf with | none => true | some p => p e) then
              match fuel with
              | 0 => (.error e, attempt + 1)   -- unreachable: fuel ≥ retries - attempt
              | fuel2 + 1 => retryGo retryOn retryIf retries f fuel2 (attempt + 1)
            else (.error e, attempt + 1)       -- `raise` re-raises e unchanged
          else (.error e, attempt + 1)          -- exception type not caught

/-- The decorated call with the default `retry_on` of `(Exception,)` (every
raised exception is caught): attempt counter starts at 0. -/
def retryCall (retries : Nat) (retryIf : Option (String → Bool))
    (f : Nat → Except String Value) : Except String Value × Nat :=
  retryGo (fun _ => true) retryIf retries f retries 0

theorem retryGo_all_fail (retries : Nat) (f : Nat → Except String Value)
    (e : String) (hf : ∀ k, k ≤ retries → f k = .error e) :
    ∀ fuel attempt, attempt ≤ retries → retries ≤ attempt + 1 + fuel →
      (retryGo (fun _ => true) none retries f fuel attempt).1 = .error e := by
  intro fuel
  induction fuel with
  | zero =>
      intro attempt ha hb
      rw [retryGo, hf attempt ha]
      have : ¬ (attempt + 1 < retries) := by omega
      simp [this]
  | succ fuel2 ih =>
      intro attempt ha hb
      rw [retryGo, hf attempt ha]
      by_cases h : attempt + 1 < retries
      · simpa [h] using ih (attempt + 1) (by omega) (by omega)
      · simp [h]

/-- Claim C3: with max_retries = 3, a function failing on its first two
invocations and succeeding on the third makes the wrapper return the
successful result after exactly 3 invocations; and for every max_retries, a
function failing on every invocation the wrapper could make (max_retries + 1
consecutive failures with exception e) makes the wrapper propagate e itself,
unchanged. -/
theorem retry_backoff_policy :
    (∀ (f : Nat → Except String Value) (e0 e1 : String) (v : Value),
      f 0 = .error e0 → f 1 = .error e1 → f 2 = .ok v →
      retryCall 3 none f = (.ok v, 3))
    ∧ (∀ (retries : Nat) (f : Nat → Except String Value) (e : String),
      (∀ k, k ≤ retries → f k = .error e) →
      (retryCall retries none f).1 = .error e) := by
  constructor
  · intro f e0 e1 v h0 h1 h2
    simp [retryCall, retryGo, h0, h1, h2]
  · intro retries f e hf
    exact retryGo_all_fail retries f e hf retries 0 (Nat.zero_le _) (by omega)

/-- Witness for C3 at concrete inputs: a function that fails twice and then
returns 7 is invoked 3 times and yields 7; a function that always fails with
"boom" propagates "boom". -/
theorem retry_backoff_policy_witness :
    retryCall 3 none (fun k => if k < 2 then .error "e" else .ok (.i 7)) = (.ok (.i 7), 3)
    ∧ (retryCall 2 none (fun _ => .error "boom")).1 = .error "boom" :=
  ⟨retry_backoff_policy.1 _ "e" "e" (.i 7) rfl rfl rfl,
   retry_backoff_policy.2 2 _ "boom" (fun _ _ => rfl)⟩

/-! ## Execution context variables
core/execution_context.py: `set_variable` / `get_variable` lines 54-75 and
`to_dict` lines 77-98.  The `variables` dict is modelled as a total map
`String -> Option Value` (absent key = none); `set_variable` is a pointwise
update, exactly `self.variables[name] = value`. -/

/-- The per-run execution context state, with the fields `to_dict` reads.
`active_nodes` and `node_results` enter `to_dict` only through their length
(`active_node_count` / `result_node_count`), so their values are kept as the
lists of their keys. -/
structure ExecContextV where
  workflowId : String
  executionId : String
  status : String
  error : Option String
  startTimeIso : Option String
  endTimeIso : Option String
  durationSeconds : Int
  activeNodes : List String
  nodeResults : List String
  varMap : String → Option Value

/-- `set_variable`: `self.variables[name] = value`. -/
def setVariable (c : ExecContextV) (name : String) (v : Value) : ExecContextV :=
  { c with varMap := fun k => if k = name then some v else c.varMap k }

/-- `get_variable`: `self.variables.get(name, default)`. -/
def getVariable (c : ExecContextV) (name : String) (default : Value) : Value :=
  (c.varMap name).getD default

/-- Python `k.startswith("_")` for the one-character prefix "_": the first
character is an underscore.  (String.startsWith is extensionally the same
but not kernel-reducible.) -/
def underscorePrefixed (k : String) : Bool :=
  match k.data with
  | [] => false
  | c :: _ => c = Char.ofNat 95

/-- What `to_dict` returns (the `start_time.isoformat() if ...` fields are the
stored iso strings). -/
structure CtxDict where
  workflowId : String
  executionId : String
  status : String
  error : Option String
  startTime : Option String
  endTime : Option String
  durationSeconds : Int
  activeNodeCount : Nat
  resultNodeCount : Nat
  varMap : String → Option Value

/-- `to_dict` lines 77-98: every field copied over, except that the
`variables` entry keeps only the variables whose name does not start with
an underscore. -/
def ctxToDict (c : ExecContextV) : CtxDict :=
  { workflowId := c.workflowId
    executionId := c.executionId
    status := c.status
    error := c.error
    startTime := c.startTimeIso
    endTime := c.endTimeIso
    durationSeconds := c.durationSeconds
    activeNodeCount := c.activeNodes.length
    resultNodeCount := c.nodeResults.length
    varMap := fun k => if underscorePrefixed k then none else c.varMap k }

/-- Claim C10: `to_dict` omits every variable whose name starts with an
underscore: two contexts identical except in the values or presence of
underscore-prefixed variables produce equal dictionaries; and after storing
an underscore-prefixed variable, `to_dict` is unchanged while `get_variable`
still returns the stored value. -/
theorem toDict_omits_underscore_variables :
    (∀ (c : ExecContextV) (v1 v2 : String → Option Value),
      (∀ k, underscorePrefixed k = false → v1 k = v2 k) →
      ctxToDict { c with varMap := v1 } = ctxToDict { c with varMap := v2 })
    ∧ (∀ (c : ExecContextV) (name : String) (v : Value) (d : Value),
      underscorePrefixed name = true →
      ctxToDict (setVariable c name v) = ctxToDict c
      ∧ getVariable (setVariable c name v) name d = v) := by
  constructor
  · intro c v1 v2 hagree
    have hfun : (fun k => if underscorePrefixed k then none else v1 k)
        = (fun k => if underscorePrefixed k then none else v2 k) := by
      funext k
      cases hu : underscorePrefixed k with
      | true => simp
      | false => simp [hagree k hu]
    simp [ctxToDict, hfun]
  · intro c name v d hu
    refine ⟨?_, ?_⟩
    · have hfun : (fun k => if underscorePrefixed k then none
            else (setVariable c name v).varMap k)
          = (fun k => if underscorePrefixed k then none else c.varMap k) := by
        funext k
        by_cases hk : k = name
        · subst hk
          simp [hu, setVariable]
        · simp [hk, setVariable]
      simp [ctxToDict, setVariable] at hfun ⊢
      simp [hfun]
    · simp [getVariable, setVariable]

/-- A concrete context used by the C10 witness, parameterized over the
variables map. -/
def baseCtx (vm : String → Option Value) : ExecContextV :=
  { workflowId := "w"
    executionId := "e"
    status := "running"
    error := none
    startTimeIso := none
    endTimeIso := none
    durationSeconds := 0
    activeNodes := []
    nodeResults := []
    varMap := vm }

/-- Witness for C10 at a concrete input: a context holding a private
variable "_secret" and one holding none give equal dictionaries, and
storing "_token" leaves the dictionary unchanged while get_variable reads
it back. -/
theorem toDict_omits_underscore_variables_witness :
    (ctxToDict (baseCtx (fun k => if k = "_secret" then some (.s "hush") else none))
      = ctxToDict (baseCtx (fun _ => none)))
    ∧ (ctxToDict (setVariable (baseCtx (fun _ => none)) "_token" (.s "t"))
      = ctxToDict (baseCtx (fun _ => none))) := by
  constructor
  · have hag : ∀ k, underscorePrefixed k = false →
        (fun k => if k = "_secret" then some (Value.s "hush") else none) k
          = (fun _ => (none : Option Value)) k := by
      intro k hk
      by_cases h : k = "_secret"
      · subst h
        exact absurd hk (by decide)
      · simp [h]
    simpa [baseCtx] using
      toDict_omits_underscore_variables.1 (baseCtx (fun _ => none)) _ _ hag
  · exact (toDict_omits_underscore_variables.2 (baseCtx (fun _ => none))
      "_token" (.s "t") .null (by decide)).1

/-! ## Node registry
core/node_registry.py, `create_node` lines 54-80: an unregistered type is
logged and `None` is returned (the raise is explicitly left to the caller);
a registered type is instantiated, re-raising anything the constructor
raises.  The node class is modelled by its constructor
(node id and definition data in, instance or raised exception out); the
instance carries the `validate_config` outcome the validator later calls
(a returned bool, or a raised exception). -/

/-- A node instance: what the validation layer can observe of it. -/
structure NodeInstM where
  validateCfg : Except String Bool

/-- A registered node class: its constructor. -/
structure NodeClassM where
  instantiate : String → Value → Except String NodeInstM

/-- `create_node`: `None` when the type is not registered, otherwise the
constructed instance, re-raising a constructor failure. -/
def createNode (reg : List (String × NodeClassM)) (typeName nodeId : String)
    (cfg : Value) : Except String (Option NodeInstM) :=
  match reg.find? (fun p => p.1 = typeName) with
  | none => .ok none
  | some p =>
      match p.2.instantiate nodeId cfg with
      | .ok inst => .ok (some inst)
      | .error e => .error e

/-- The engine caller, `_initialize_workflow_nodes` lines 451-460: a `None`
from the registry is turned into `WorkflowError("Failed to create node of
type ...")`; a raised constructor error propagates. -/
def initNodeInstance (reg : List (String × NodeClassM)) (typeName nodeId : String)
    (cfg : Value) : Except String NodeInstM :=
  match createNode reg typeName nodeId cfg with
  | .error e => .error e
  | .ok none => .error ("Failed to create node of type " ++ typeName)
  | .ok (some inst) => .ok inst

/-- Claim C9, counterexample: on the empty registry, `create_node("Bogus",
...)` does not fail with UnknownTypeError (or any exception): it returns
None, a successful return value. -/
theorem createNode_unknown_type_returns_none :
    createNode [] "Bogus" "n1" (.dict []) = .ok none := rfl

/-- Claim C9, amended: for an unregistered type, `create_node` returns None
(no UnknownTypeError exists in the code); the engine's node initialization
then fails with WorkflowError naming the type.  For a registered type the
bound class is instantiated and a constructor exception is re-raised
unchanged. -/
theorem createNode_amended (reg : List (String × NodeClassM))
    (typeName nodeId : String) (cfg : Value) :
    (reg.find? (fun p => p.1 = typeName) = none →
      createNode reg typeName nodeId cfg = .ok none
      ∧ initNodeInstance reg typeName nodeId cfg =
          .error ("Failed to create node of type " ++ typeName))
    ∧ (∀ p, reg.find? (fun p => p.1 = typeName) = some p →
      createNode reg typeName nodeId cfg =
        match p.2.instantiate nodeId cfg with
        | .ok inst => .ok (some inst)
        | .error e => .error e) := by
  constructor
  · intro hnone
    constructor
    · simp [createNode, hnone]
    · simp [initNodeInstance, createNode, hnone]
  · intro p hsome
    simp [createNode, hsome]

/-! ## Engine state: execution status after a failed run
workflow_engine.py: `get_execution_status` lines 234-267, `get_workflow_status`
lines 219-232, and the failure path of `_execute_workflow_internal` lines
397-433 (the `except Exception` branch followed by the `finally` block).
Only the state the two status queries read is modelled; node-level timing
sub-dicts are omitted (the claim is about the top-level `status` field). -/

/-- The slice of an ExecutionContext that `get_execution_status` renders. -/
structure ExecCtxS where
  workflowId : String
  workflowName : String
  status : String
  error : Option String
  startTimeIso : Option String
  endTimeIso : Option String
  durationSeconds : Int

/-- The engine's mutable tables: `workflow_status` (status strings) and
`active_executions`. -/
structure EngineS where
  workflowStatus : List (String × String)
  activeExecutions : List (String × ExecCtxS)

/-- The status dictionary `get_execution_status` returns. -/
structure ExecStatusDict where
  executionId : String
  workflowId : String
  workflowName : String
  status : String
  startTime : Option String
  endTime : Option String
  durationSeconds : Int
  error : Option String

/-- `get_execution_status` lines 234-267: `None` when the execution id is not
in `active_executions`, otherwise the rendered context. -/
def getExecutionStatus (s : EngineS) (eid : String) : Option ExecStatusDict :=
  match lookupA s.activeExecutions eid with
  | none => none
  | some ctx =>
      some { executionId := eid
             workflowId := ctx.workflowId
             workflowName := ctx.workflowName
             status := ctx.status
             startTime := ctx.startTimeIso
             endTime := ctx.endTimeIso
             durationSeconds := ctx.durationSeconds
             error := ctx.error }

/-- `get_workflow_status` lines 219-232. -/
def getWorkflowStatus (s : EngineS) (wid : String) : Option String :=
  lookupA s.workflowStatus wid

/-- Python `dict.pop(k, None)`: remove the entry with key `k`. -/
def popAssoc {α : Type} : List (String × α) → String → List (String × α)
  | [], _ => []
  | (k2, v) :: rest, k =>
      if k2 = k then popAssoc rest k else (k2, v) :: popAssoc rest k

/-- The `except Exception` branch of `_execute_workflow_internal` (lines
397-424) followed by its `finally` block (lines 426-433), for the execution
`eid` of workflow `wid` failing with `msg`: the context is marked failed,
the workflow status becomes FAILED, and then the context is popped from
`active_executions`. -/
def runFailurePath (s : EngineS) (eid wid msg : String) : EngineS :=
  let s1 : EngineS :=
    { s with activeExecutions := s.activeExecutions.map (fun p =>
        if p.1 = eid then
          (p.1, { p.2 with status := "failed", error := some msg })
        else p) }
  let s2 : EngineS :=
    { s1 with workflowStatus := setAssoc s1.workflowStatus wid "failed" }
  -- finally: self.active_executions.pop(execution_id, None)
  { s2 with activeExecutions := popAssoc s2.activeExecutions eid }

theorem lookupA_popAssoc_self {α : Type} (m : List (String × α)) (k : String) :
    lookupA (popAssoc m k) k = none := by
  induction m with
  | nil => rfl
  | cons hd tl ih =>
      obtain ⟨k2, v⟩ := hd
      by_cases h : k2 = k
      · simpa [popAssoc, h] using ih
      · simpa [popAssoc, h, lookupA, List.find?] using ih

/-- Claim C7, counterexample: a concrete running execution "e1" of workflow
"wf" whose run fails with "boom": afterwards `get_execution_status("e1")` is
`None`, not a dictionary with status "failed" — the `finally` block removed
the context from `active_executions` before any poll can see it. -/
theorem getExecutionStatus_after_failure_is_none :
    getExecutionStatus
      (runFailurePath
        { workflowStatus := [("wf", "running")]
          activeExecutions := [("e1",
            { workflowId := "wf"
              workflowName := "W"
              status := "running"
              error := none
              startTimeIso := none
              endTimeIso := none
              durationSeconds := 0 })] }
        "e1" "wf" "boom")
      "e1" = none := rfl

/-- Claim C7, amended: after a run reaches terminal failure,
`get_execution_status(execution_id)` returns None (the run's `finally` block
pops the context from `active_executions`), so the terminal status "failed"
is NOT observable there; it is observable through
`get_workflow_status(workflow_id)`, which returns "failed". -/
theorem execution_status_after_failure (s : EngineS) (eid wid msg : String) :
    getExecutionStatus (runFailurePath s eid wid msg) eid = none
    ∧ getWorkflowStatus (runFailurePath s eid wid msg) wid = some "failed" := by
  constructor
  · simp [getExecutionStatus, runFailurePath, lookupA_popAssoc_self]
  · simp [getWorkflowStatus, runFailurePath, lookupA_setAssoc_self]

/-! ## Concurrency: the execution semaphore
workflow_engine.py `__init__` lines 63-64 and `execute_workflow` lines
182-187:

    async with self.execution_semaphore:
        execution_task = self.loop.create_task(self._execute_workflow_internal(context))
        context.task = execution_task

The `async with` block only wraps `create_task`: the permit is acquired,
the run task is created (not awaited), and the permit is released when the
block exits — before the run body executes.  A run trace is modelled as an
interleaving of the atomic events of the two `execute_workflow` calls and
of their two run-task bodies; a trace is feasible when it respects each
call's program order, the created tasks start after creation, the second
call starts after the first returns (back-to-back callers), and the
semaphore never hands out more permits than its capacity. -/

/-- The observable events of one execute call `t` and its run task:
acquire the semaphore, create the run task, release the semaphore
(`async with` exit), then in the task body: initialize the nodes and
complete the final level. -/
inductive EngEv where
  | acq : Nat → EngEv
  | spawn : Nat → EngEv
  | rel : Nat → EngEv
  | initNodes : Nat → EngEv
  | finalLevel : Nat → EngEv
deriving DecidableEq

/-- Index of the first occurrence of an event in a trace. -/
def idxOfEv : List EngEv → EngEv → Nat
  | [], _ => 0
  | x :: rest, e => if x = e then 0 else idxOfEv rest e + 1

/-- Number of occurrences of an event. -/
def countEv : List EngEv → EngEv → Nat
  | [], _ => 0
  | x :: rest, e => (if x = e then 1 else 0) + countEv rest e

/-- The semaphore discipline: an acquire only proceeds when a permit is
available (else the acquirer would block at that point, and the trace as
written is infeasible); a release returns a permit. -/
def semFeasible : List EngEv → Nat → Bool
  | [], _ => true
  | .acq _ :: rest, avail =>
      if avail = 0 then false else semFeasible rest (avail - 1)
  | .rel _ :: rest, avail => semFeasible rest (avail + 1)
  | _ :: rest, avail => semFeasible rest avail

/-- Event `a` happens before event `b` in the trace. -/
def evBefore (tr : List EngEv) (a b : EngEv) : Bool :=
  decide (idxOfEv tr a < idxOfEv tr b)

/-- Program order of one execute call and its run task, as the source orders
them: acquire, then create_task, then release; the body events follow the
task creation and each event occurs exactly once. -/
def callProgramOk (tr : List EngEv) (t : Nat) : Bool :=
  (countEv tr (.acq t) == 1) && (countEv tr (.spawn t) == 1)
  && (countEv tr (.rel t) == 1) && (countEv tr (.initNodes t) == 1)
  && (countEv tr (.finalLevel t) == 1)
  && evBefore tr (.acq t) (.spawn t)
  && evBefore tr (.spawn t) (.rel t)
  && evBefore tr (.spawn t) (.initNodes t)
  && evBefore tr (.initNodes t) (.finalLevel t)

/-- A feasible complete trace of two back-to-back execute calls under
semaphore capacity `cap`: each call respects program order, the second call
is issued only after the first returned (its release), and the semaphore
discipline holds throughout. -/
def engineTraceOk (cap : Nat) (tr : List EngEv) : Bool :=
  semFeasible tr cap && callProgramOk tr 1 && callProgramOk tr 2
  && evBefore tr (.rel 1) (.acq 2)

/-- The schedule the event loop actually produces for two back-to-back calls
whose run bodies overlap: both permits are acquired and released around task
creation alone, then both bodies run. -/
def overlapTrace : List EngEv :=
  [.acq 1, .spawn 1, .rel 1, .acq 2, .spawn 2, .rel 2,
   .initNodes 1, .initNodes 2, .finalLevel 1, .finalLevel 2]

/-- Claim C5 fails on the code: with `max_concurrent_workflows = 1` the
trace in which the second run's node initialization happens before the
first run's final level completes is feasible — the semaphore is released
when `create_task` returns, so it never excludes the two run bodies from
overlapping.  (The claim asserts the second run's initialization begins
only after the first run's final level; `overlapTrace` is a feasible
counterexample schedule.) -/
theorem semaphore_does_not_serialize_runs :
    engineTraceOk 1 overlapTrace = true
    ∧ evBefore overlapTrace (.initNodes 2) (.finalLevel 1) = true := by
  constructor
  · rfl
  · rfl

/-! ## Execution planner
workflow_engine.py `_build_execution_plan` lines 604-655: build a
dependency map `dependencies[n] = set of sources of edges into n` (skipping
edges whose source or target is falsy, i.e. the empty string, per
`if source and target:`; a target that is not a key of the map raises
KeyError), then repeatedly peel off the set of nodes whose dependency set
is empty.  The Python loop removes each emitted level's nodes from every
remaining dependency set; here the set of already-emitted nodes (`done`)
accumulates instead and a node's current dependency set is its built set
minus `done` — the same sets at every iteration.  The `while` loop recurses
on fuel; every non-raising iteration removes at least one node from
`remaining`, so fuel `nodes.length` (what `buildExecutionPlan` passes) is
enough and the fuel-0 fallthrough is unreachable. -/

/-- How `_build_execution_plan` raises: a KeyError from
`dependencies[target]` when the target is not a key, or the
`WorkflowError("Cyclic dependency detected among nodes: ...")` carrying the
stranded nodes interpolated into its message. -/
inductive PlanError where
  | keyErr : String → PlanError
  | cyclic : List String → PlanError
deriving DecidableEq

/-- `dependencies[target].add(source)`: update the entry for `target`
(set add: ignore an already-present source), or fail like the KeyError when
`target` is not a key. -/
def addDep : List (String × List String) → String → String →
    Option (List (String × List String))
  | [], _, _ => none
  | (k, v) :: rest, target, source =>
      if k = target then
        some ((k, if source ∈ v then v else source :: v) :: rest)
      else
        match addDep rest target source with
        | some rest2 => some ((k, v) :: rest2)
        | none => none

/-- The edge loop of lines 623-629: skip an edge with a falsy (empty)
source or target, otherwise record the dependency. -/
def buildDepsList : List (String × List String) → List (String × String) →
    Option (List (String × List String))
  | deps, [] => some deps
  | deps, (s, t) :: es =>
      if s = "" ∨ t = "" then buildDepsList deps es
      else
        match addDep deps t s with
        | some deps2 => buildDepsList deps2 es
        | none => none

/-- `dependencies = {node_id: set() for node_id in nodes_def}`. -/
def initDeps (nodes : List String) : List (String × List String) :=
  nodes.map (fun n => (n, []))

/-- `dependencies[n]` (with default [], only ever read for keys). -/
def depsGet (deps : List (String × List String)) (n : String) : List String :=
  match deps.find? (fun p => p.1 = n) with
  | some p => p.2
  | none => []

/-- One level: the remaining nodes whose dependency set minus the already
emitted nodes is empty (lines 637-641). -/
def levelOf (deps : List (String × List String)) (done remaining : List String) :
    List String :=
  remaining.filter (fun n => ((depsGet deps n).filter (fun d => !done.contains d)).isEmpty)

/-- The `while remaining_nodes:` loop of lines 635-653. -/
def planLoop (deps : List (String × List String)) :
    Nat → List String → List String → Except (List String) (List (List String))
  | _, _, [] => .ok []
  | 0, _, remaining => .error remaining   -- unreachable: fuel ≥ remaining.length
  | fuel + 1, done, remaining =>
      let level := levelOf deps done remaining
      if level.isEmpty then .error remaining
      else
        match planLoop deps fuel (done ++ level)
            (remaining.filter (fun n => !level.contains n)) with
        | .ok rest => .ok (level :: rest)
        | .error e => .error e

/-- `_build_execution_plan`: a list of levels, or the raised error. -/
def buildExecutionPlan (nodes : List String) (edges : List (String × String)) :
    Except PlanError (List (List String)) :=
  match buildDepsList (initDeps nodes) edges with
  | none => .error (.keyErr "dependencies[target]")
  | some deps =>
      match planLoop deps nodes.length [] nodes with
      | .ok plan => .ok plan
      | .error stranded => .error (.cyclic stranded)

/-- The index of the level containing a node (the levels partition the
nodes, see the planner theorems). -/
def levelIdx (plan : List (List String)) (n : String) : Nat :=
  plan.findIdx (fun lvl => lvl.contains n)

/-! ### Dependency-map lemmas -/

theorem addDep_keys (d : List (String × List String)) (t s2 : String)
    (d2 : List (String × List String)) (h : addDep d t s2 = some d2) :
    d2.map Prod.fst = d.map Prod.fst := by
  induction d generalizing d2 with
  | nil => simp [addDep] at h
  | cons hd rest ih =>
      obtain ⟨k, v⟩ := hd
      by_cases hk : k = t
      · subst hk
        simp [addDep] at h
        subst h
        simp
      · simp only [addDep, hk, if_false] at h
        cases hr : addDep rest t s2 with
        | none => rw [hr] at h; simp at h
        | some rest2 =>
            rw [hr] at h
            simp at h
            subst h
            simp [ih rest2 hr]

theorem addDep_isSome (d : List (String × List String)) (t s2 : String)
    (ht : t ∈ d.map Prod.fst) : ∃ d2, addDep d t s2 = some d2 := by
  induction d with
  | nil => simp at ht
  | cons hd rest ih =>
      obtain ⟨k, v⟩ := hd
      by_cases hk : k = t
      · subst hk
        refine ⟨(k, if s2 ∈ v then v else s2 :: v) :: rest, ?_⟩
        simp [addDep]
      · simp only [List.map_cons, List.mem_cons] at ht
        rcases ht with ht | ht
        · exact absurd ht.symm hk
        · obtain ⟨d2, hd2⟩ := ih ht
          exact ⟨(k, v) :: d2, by simp [addDep, hk, hd2]⟩

theorem addDep_depsGet (d : List (String × List String)) (t s2 : String)
    (d2 : List (String × List String)) (h : addDep d t s2 = some d2) :
    depsGet d2 t = (if s2 ∈ depsGet d t then depsGet d t else s2 :: depsGet d t)
    ∧ ∀ n, n ≠ t → depsGet d2 n = depsGet d n := by
  induction d generalizing d2 with
  | nil => simp [addDep] at h
  | cons hd rest ih =>
      obtain ⟨k, v⟩ := hd
      by_cases hk : k = t
      · subst hk
        simp [addDep] at h
        subst h
        constructor
        · simp [depsGet, List.find?]
        · intro n hn
          have hkn : ¬ (k = n) := fun hx => hn hx.symm
          simp [depsGet, List.find?, hkn]
      · simp only [addDep, hk, if_false] at h
        cases hr : addDep rest t s2 with
        | none => rw [hr] at h; simp at h
        | some rest2 =>
            rw [hr] at h
            simp at h
            subst h
            obtain ⟨ih1, ih2⟩ := ih rest2 hr
            constructor
            · simpa [depsGet, List.find?, hk] using ih1
            · intro n hn
              by_cases hkn : k = n
              · simp [depsGet, List.find?, hkn]
              · simpa [depsGet, List.find?, hkn] using ih2 n hn

theorem addDep_mem_depsGet (d : List (String × List String)) (t s2 : String)
    (d2 : List (String × List String)) (h : addDep d t s2 = some d2) (n a : String) :
    a ∈ depsGet d2 n ↔ a ∈ depsGet d n ∨ (n = t ∧ a = s2) := by
  obtain ⟨h1, h2⟩ := addDep_depsGet d t s2 d2 h
  by_cases hn : n = t
  · subst hn
    rw [h1]
    by_cases hs : s2 ∈ depsGet d n
    · simp only [if_pos hs]
      constructor
      · exact fun ha => Or.inl ha
      · rintro (ha | ⟨-, rfl⟩)
        · exact ha
        · exact hs
    · simp only [if_neg hs, List.mem_cons]
      tauto
  · rw [h2 n hn]
    simp [hn]

theorem buildDepsList_spec (es : List (String × String)) :
    ∀ d D, buildDepsList d es = some D →
      D.map Prod.fst = d.map Prod.fst
      ∧ ∀ n a, a ∈ depsGet D n ↔
          a ∈ depsGet d n ∨ ((a, n) ∈ es ∧ a ≠ "" ∧ n ≠ "") := by
  induction es with
  | nil =>
      intro d D h
      simp [buildDepsList] at h
      subst h
      simp
  | cons e rest ih =>
      intro d D h
      obtain ⟨s2, t⟩ := e
      by_cases hz : s2 = "" ∨ t = ""
      · rw [buildDepsList, if_pos hz] at h
        obtain ⟨hk, hm⟩ := ih d D h
        refine ⟨hk, fun n a => ?_⟩
        rw [hm n a]
        constructor
        · rintro (ha | ha)
          · exact Or.inl ha
          · exact Or.inr ⟨List.mem_cons_of_mem _ ha.1, ha.2⟩
        · rintro (ha | ⟨hmem, hane, hnne⟩)
          · exact Or.inl ha
          · rcases List.mem_cons.mp hmem with heq | hmem2
            · obtain ⟨rfl, rfl⟩ := Prod.mk.injEq .. ▸ heq
              rcases hz with hz | hz
              · injection heq with h1 h2
                exact absurd (h1 ▸ hz) hane
              · injection heq with h1 h2
                exact absurd (h2 ▸ hz) hnne
            · exact Or.inr ⟨hmem2, hane, hnne⟩
      · rw [buildDepsList, if_neg hz] at h
        cases ha : addDep d t s2 with
        | none => rw [ha] at h; simp at h
        | some d2 =>
            rw [ha] at h
            obtain ⟨hk, hm⟩ := ih d2 D h
            push_neg at hz
            refine ⟨hk.trans (addDep_keys d t s2 d2 ha), fun n a => ?_⟩
            rw [hm n a, addDep_mem_depsGet d t s2 d2 ha n a]
            constructor
            · rintro ((hd | ⟨rfl, rfl⟩) | hrest)
              · exact Or.inl hd
              · exact Or.inr ⟨List.mem_cons_self _ _, hz.1, hz.2⟩
              · exact Or.inr ⟨List.mem_cons_of_mem _ hrest.1, hrest.2⟩
            · rintro (hd | ⟨hmem, hane, hnne⟩)
              · exact Or.inl (Or.inl hd)
              · rcases List.mem_cons.mp hmem with heq | hmem2
                · injection heq with h1 h2
                  exact Or.inl (Or.inr ⟨h2, h1⟩)
                · exact Or.inr ⟨hmem2, hane, hnne⟩

theorem buildDepsList_isSome (es : List (String × String)) :
    ∀ d, (∀ e ∈ es, e.1 ≠ "" → e.2 ≠ "" → e.2 ∈ d.map Prod.fst) →
      ∃ D, buildDepsList d es = some D := by
  induction es with
  | nil => exact fun d _ => ⟨d, rfl⟩
  | cons e rest ih =>
      intro d hval
      obtain ⟨s2, t⟩ := e
      by_cases hz : s2 = "" ∨ t = ""
      · obtain ⟨D, hD⟩ := ih d (fun e he => hval e (List.mem_cons_of_mem _ he))
        exact ⟨D, by rw [buildDepsList, if_pos hz]; exact hD⟩
      · push_neg at hz
        obtain ⟨d2, hd2⟩ := addDep_isSome d t s2
          (hval (s2, t) (List.mem_cons_self _ _) hz.1 hz.2)
        obtain ⟨D, hD⟩ := ih d2 (fun e he h1 h2 => by
          rw [addDep_keys d t s2 d2 hd2]
          exact hval e (List.mem_cons_of_mem _ he) h1 h2)
        refine ⟨D, ?_⟩
        rw [buildDepsList, if_neg (by push_neg; exact hz), hd2]
        exact hD

theorem depsGet_initDeps (nodes : List String) (n : String) :
    depsGet (initDeps nodes) n = [] := by
  induction nodes with
  | nil => rfl
  | cons m rest ih =>
      by_cases h : m = n
      · simp [initDeps, depsGet, List.find?, h]
      · simpa [initDeps, depsGet, List.find?, h] using ih

theorem initDeps_keys (nodes : List String) :
    (initDeps nodes).map Prod.fst = nodes := by
  induction nodes with
  | nil => rfl
  | cons n rest ih => simp [initDeps] at ih ⊢; exact ih

/-! ### Planner loop lemmas -/

theorem planLoop_nil (deps : List (String × List String)) (fuel : Nat)
    (done : List String) : planLoop deps fuel done [] = .ok [] := by
  cases fuel <;> rfl

theorem planLoop_zero_cons (deps : List (String × List String)) (done : List String)
    (r : String) (rs : List String) :
    planLoop deps 0 done (r :: rs) = .error (r :: rs) := rfl

theorem planLoop_succ_cons (deps : List (String × List String)) (fuel : Nat)
    (done : List String) (r : String) (rs : List String) :
    planLoop deps (fuel + 1) done (r :: rs) =
      if (levelOf deps done (r :: rs)).isEmpty then .error (r :: rs)
      else
        match planLoop deps fuel (done ++ levelOf deps done (r :: rs))
            ((r :: rs).filter (fun n => !(levelOf deps done (r :: rs)).contains n)) with
        | .ok rest => .ok (levelOf deps done (r :: rs) :: rest)
        | .error e => .error e := rfl

/-- Membership in a level is the emptiness test on the current dependency
set. -/
theorem mem_levelOf (deps : List (String × List String)) (done remaining : List String)
    (n : String) :
    n ∈ levelOf deps done remaining ↔
      n ∈ remaining ∧ ((depsGet deps n).filter (fun d => !done.contains d)) = [] := by
  unfold levelOf
  rw [List.mem_filter]
  constructor
  · exact fun ⟨h1, h2⟩ => ⟨h1, List.isEmpty_iff.mp h2⟩
  · exact fun ⟨h1, h2⟩ => ⟨h1, List.isEmpty_iff.mpr h2⟩

theorem contains_eq_of_mem (level : List String) (remaining : List String)
    (q : String → Bool) (hlev : level = remaining.filter q) :
    ∀ x ∈ remaining, level.contains x = q x := by
  intro x hx
  by_cases hq : q x
  · have : x ∈ level := hlev ▸ List.mem_filter.mpr ⟨hx, hq⟩
    rw [hq]
    exact List.elem_iff.mpr this
  · have hb : q x = false := Bool.not_eq_true _ ▸ hq
    cases hc : level.contains x with
    | false => rw [hb]
    | true =>
        have : x ∈ level := List.elem_iff.mp hc
        rw [hlev] at this
        exact absurd (List.mem_filter.mp this).2 hq

/-- A successful plan's levels are, jointly, a permutation of the remaining
nodes. -/
theorem planLoop_ok_perm (deps : List (String × List String)) :
    ∀ fuel done remaining plan,
      planLoop deps fuel done remaining = .ok plan →
      List.Perm plan.flatten remaining := by
  intro fuel
  induction fuel with
  | zero =>
      intro done remaining plan h
      cases remaining with
      | nil =>
          rw [planLoop_nil] at h
          injection h with h
          subst h
          rfl
      | cons r rs => rw [planLoop_zero_cons] at h; exact absurd h (by simp)
  | succ fuel ih =>
      intro done remaining plan h
      cases remaining with
      | nil =>
          rw [planLoop_nil] at h
          injection h with h
          subst h
          rfl
      | cons r rs =>
          rw [planLoop_succ_cons] at h
          by_cases he : (levelOf deps done (r :: rs)).isEmpty
          · rw [if_pos he] at h; exact absurd h (by simp)
          · rw [if_neg he] at h
            cases hrec : planLoop deps fuel (done ++ levelOf deps done (r :: rs))
                ((r :: rs).filter (fun n => !(levelOf deps done (r :: rs)).contains n)) with
            | error e => rw [hrec] at h; exact absurd h (by simp)
            | ok rest =>
                rw [hrec] at h
                injection h with h
                subst h
                have hperm := ih _ _ rest hrec
                simp only [List.flatten_cons]
                have hcongr : (r :: rs).filter (fun n => !(levelOf deps done (r :: rs)).contains n)
                    = (r :: rs).filter (fun n =>
                        !((depsGet deps n).filter (fun d => !done.contains d)).isEmpty) := by
                  refine List.filter_congr ?_
                  intro x hx
                  rw [contains_eq_of_mem (levelOf deps done (r :: rs)) (r :: rs)
                    (fun n => ((depsGet deps n).filter (fun d => !done.contains d)).isEmpty)
                    rfl x hx]
                rw [hcongr] at hperm
                refine (hperm.append_left (levelOf deps done (r :: rs))).trans ?_
                exact List.filter_append_perm _ (r :: rs)

/-- Every dependency of a node placed in level i was either already done
before the loop started or sits in a strictly earlier level. -/
theorem planLoop_ok_level_deps (deps : List (String × List String)) :
    ∀ fuel done remaining plan,
      planLoop deps fuel done remaining = .ok plan →
      ∀ i lvl, plan.get? i = some lvl →
        ∀ b ∈ lvl, ∀ a ∈ depsGet deps b, a ∈ done ∨ a ∈ (plan.take i).flatten := by
  intro fuel
  induction fuel with
  | zero =>
      intro done remaining plan h
      cases remaining with
      | nil =>
          rw [planLoop_nil] at h
          injection h with h
          subst h
          intro i lvl hget
          simp at hget
      | cons r rs => rw [planLoop_zero_cons] at h; exact absurd h (by simp)
  | succ fuel ih =>
      intro done remaining plan h
      cases remaining with
      | nil =>
          rw [planLoop_nil] at h
          injection h with h
          subst h
          intro i lvl hget
          simp at hget
      | cons r rs =>
          rw [planLoop_succ_cons] at h
          by_cases he : (levelOf deps done (r :: rs)).isEmpty
          · rw [if_pos he] at h; exact absurd h (by simp)
          · rw [if_neg he] at h
            cases hrec : planLoop deps fuel (done ++ levelOf deps done (r :: rs))
                ((r :: rs).filter (fun n => !(levelOf deps done (r :: rs)).contains n)) with
            | error e => rw [hrec] at h; exact absurd h (by simp)
            | ok rest =>
                rw [hrec] at h
                injection h with h
                subst h
                intro i lvl hget b hb a ha
                cases i with
                | zero =>
                    simp only [List.get?] at hget
                    injection hget with hget
                    subst hget
                    have hmem := (mem_levelOf deps done (r :: rs) b).mp hb
                    have hdone : a ∈ done := by
                      by_contra hnd
                      have : a ∈ (depsGet deps b).filter (fun d => !done.contains d) := by
                        refine List.mem_filter.mpr ⟨ha, ?_⟩
                        cases hc : done.contains a with
                        | false => rfl
                        | true => exact absurd (List.elem_iff.mp hc) hnd
                      rw [hmem.2] at this
                      exact absurd this (List.not_mem_nil a)
                    exact Or.inl hdone
                | succ j =>
                    simp only [List.get?] at hget
                    have := ih _ _ rest hrec j lvl hget b hb a ha
                    rcases this with hdl | htake
                    · rcases List.mem_append.mp hdl with hd | hl
                      · exact Or.inl hd
                      · refine Or.inr ?_
                        simp only [List.take_succ_cons, List.flatten_cons,
                          List.mem_append]
                        exact Or.inl hl
                    · refine Or.inr ?_
                      simp only [List.take_succ_cons, List.flatten_cons,
                        List.mem_append]
                      exact Or.inr htake

/-- A finite nonempty set under an acyclic relation has an element with no
predecessor in the set (otherwise following predecessors forever must
revisit an element, yielding a cycle). -/
theorem exists_unpreceded {α : Type} [DecidableEq α] (R : α → α → Prop) (s : List α)
    (hne : s ≠ []) (hacyc : ∀ n, ¬ Relation.TransGen R n n) :
    ∃ b ∈ s, ∀ a ∈ s, ¬ R a b := by
  by_contra hcon
  push_neg at hcon
  obtain ⟨x0, hx0⟩ := List.exists_mem_of_ne_nil s hne
  let f : {x // x ∈ s} → {x // x ∈ s} := fun b =>
    ⟨(hcon b.1 b.2).choose, (hcon b.1 b.2).choose_spec.1⟩
  have hf : ∀ b : {x // x ∈ s}, R (f b).1 b.1 := fun b => (hcon b.1 b.2).choose_spec.2
  let g : ℕ → {x // x ∈ s} := fun n => f^[n] ⟨x0, hx0⟩
  have hg : ∀ n, R (g (n + 1)).1 (g n).1 := by
    intro n
    have hit : g (n + 1) = f (g n) := Function.iterate_succ_apply' f n _
    rw [hit]
    exact hf (g n)
  have hchain : ∀ i j, i < j → Relation.TransGen R (g j).1 (g i).1 := by
    intro i j hij
    induction j with
    | zero => omega
    | succ j ihj =>
        rcases Nat.lt_succ_iff_lt_or_eq.mp hij with hlt | heq
        · exact Relation.TransGen.head (hg j) (ihj hlt)
        · subst heq
          exact Relation.TransGen.single (hg i)
  have hmaps : ∀ n ∈ Finset.range (s.toFinset.card + 1), (g n).1 ∈ s.toFinset :=
    fun n _ => List.mem_toFinset.mpr (g n).2
  have hcard : s.toFinset.card < (Finset.range (s.toFinset.card + 1)).card := by simp
  obtain ⟨i, _, j, _, hij, heq⟩ :=
    Finset.exists_ne_map_eq_of_card_lt_of_maps_to hcard hmaps
  rcases hij.lt_or_lt with hlt | hlt
  · have := hchain i j hlt
    rw [← heq] at this
    exact hacyc _ this
  · have := hchain j i hlt
    rw [heq] at this
    exact hacyc _ this

/-- On an acyclic dependency relation the loop always succeeds (the claim
needs only existence; fuel must cover the remaining count). -/
theorem planLoop_ok_of_acyclic (deps : List (String × List String))
    (nodes : List String)
    (hclose : ∀ b a, a ∈ depsGet deps b → a ∈ nodes)
    (hacyc : ∀ n, ¬ Relation.TransGen (fun a b => a ∈ depsGet deps b) n n) :
    ∀ fuel done remaining, remaining.length ≤ fuel →
      (∀ x ∈ nodes, x ∈ done ∨ x ∈ remaining) →
      (∀ x ∈ remaining, x ∈ nodes) →
      ∃ plan, planLoop deps fuel done remaining = .ok plan := by
  intro fuel
  induction fuel with
  | zero =>
      intro done remaining hlen _ _
      rw [List.length_eq_zero.mp (Nat.le_zero.mp hlen)]
      exact ⟨[], planLoop_nil deps 0 done⟩
  | succ fuel ih =>
      intro done remaining hlen hpart hsub
      cases hrem : remaining with
      | nil => exact ⟨[], planLoop_nil deps _ done⟩
      | cons r rs =>
          subst hrem
          obtain ⟨b, hbmem, hbmin⟩ := exists_unpreceded
            (fun a b => a ∈ depsGet deps b ∧ a ∉ done) (r :: rs) (by simp)
            (fun n hn => hacyc n (hn.mono (fun a b h => h.1)))
          have hqb : ((depsGet deps b).filter (fun d => !done.contains d)) = [] := by
            rw [List.filter_eq_nil_iff]
            intro a ha
            have hanodes : a ∈ nodes := hclose b a ha
            have hadone : a ∈ done := by
              rcases hpart a hanodes with hd | hr
              · exact hd
              · by_contra hnd
                exact hbmin a hr ⟨ha, hnd⟩
            simpa using hadone
          have hblev : b ∈ levelOf deps done (r :: rs) :=
            (mem_levelOf deps done (r :: rs) b).mpr ⟨hbmem, hqb⟩
          have hne : ¬ (levelOf deps done (r :: rs)).isEmpty := by
            intro hemp
            rw [List.isEmpty_iff.mp hemp] at hblev
            exact absurd hblev (List.not_mem_nil b)
          have hlendec : ((r :: rs).filter
              (fun n => !(levelOf deps done (r :: rs)).contains n)).length
              < (r :: rs).length := by
            refine List.length_filter_lt_length_iff_exists.mpr ⟨b, hbmem, ?_⟩
            simpa using hblev
          obtain ⟨plan2, hplan2⟩ := ih (done ++ levelOf deps done (r :: rs))
            ((r :: rs).filter (fun n => !(levelOf deps done (r :: rs)).contains n))
            (by omega)
            (by
              intro x hx
              rcases hpart x hx with hd | hr
              · exact Or.inl (List.mem_append.mpr (Or.inl hd))
              · by_cases hl : x ∈ levelOf deps done (r :: rs)
                · exact Or.inl (List.mem_append.mpr (Or.inr hl))
                · refine Or.inr (List.mem_filter.mpr ⟨hr, ?_⟩)
                  cases hc : (levelOf deps done (r :: rs)).contains x with
                  | false => rfl
                  | true => exact absurd (List.elem_iff.mp hc) hl)
            (fun x hx => hsub x (List.mem_filter.mp hx).1)
          refine ⟨levelOf deps done (r :: rs) :: plan2, ?_⟩
          rw [planLoop_succ_cons, if_neg hne, hplan2]

/-- A set of nodes each of which has a predecessor in the set (for instance
the nodes of a cycle) is never emitted: the loop ends in the cyclic
dependency error and the stranded list contains all of them. -/
theorem planLoop_error_of_cycle (deps : List (String × List String))
    (C : List String) (hCne : C ≠ [])
    (hpred : ∀ b ∈ C, ∃ a ∈ C, a ∈ depsGet deps b) :
    ∀ fuel done remaining, (∀ c ∈ C, c ∈ remaining) →
      (∀ x ∈ done, x ∉ remaining) →
      ∃ stranded, planLoop deps fuel done remaining = .error stranded
        ∧ ∀ c ∈ C, c ∈ stranded := by
  intro fuel
  induction fuel with
  | zero =>
      intro done remaining hCrem _
      obtain ⟨c0, hc0⟩ := List.exists_mem_of_ne_nil C hCne
      cases hrem : remaining with
      | nil => rw [hrem] at hCrem; exact absurd (hCrem c0 hc0) (List.not_mem_nil c0)
      | cons r rs =>
          subst hrem
          exact ⟨r :: rs, planLoop_zero_cons deps done r rs, hCrem⟩
  | succ fuel ih =>
      intro done remaining hCrem hdisj
      obtain ⟨c0, hc0⟩ := List.exists_mem_of_ne_nil C hCne
      cases hrem : remaining with
      | nil => rw [hrem] at hCrem; exact absurd (hCrem c0 hc0) (List.not_mem_nil c0)
      | cons r rs =>
          subst hrem
          have hCnotlev : ∀ c ∈ C, c ∉ levelOf deps done (r :: rs) := by
            intro c hc hclev
            obtain ⟨a, haC, hadep⟩ := hpred c hc
            have hmem := (mem_levelOf deps done (r :: rs) c).mp hclev
            have : a ∈ (depsGet deps c).filter (fun d => !done.contains d) := by
              refine List.mem_filter.mpr ⟨hadep, ?_⟩
              cases hcont : done.contains a with
              | false => rfl
              | true => exact absurd (hCrem a haC) (hdisj a (List.elem_iff.mp hcont))
            rw [hmem.2] at this
            exact absurd this (List.not_mem_nil a)
          by_cases he : (levelOf deps done (r :: rs)).isEmpty
          · refine ⟨r :: rs, ?_, hCrem⟩
            rw [planLoop_succ_cons, if_pos he]
          · obtain ⟨stranded, hstr, hCstr⟩ := ih (done ++ levelOf deps done (r :: rs))
              ((r :: rs).filter (fun n => !(levelOf deps done (r :: rs)).contains n))
              (by
                intro c hc
                refine List.mem_filter.mpr ⟨hCrem c hc, ?_⟩
                cases hcont : (levelOf deps done (r :: rs)).contains c with
                | false => rfl
                | true => exact absurd (List.elem_iff.mp hcont) (hCnotlev c hc))
              (by
                intro x hx hxrem
                have hxr := (List.mem_filter.mp hxrem).1
                rcases List.mem_append.mp hx with hd | hl
                · exact hdisj x hd hxr
                · have := (List.mem_filter.mp hxrem).2
                  simp at this
                  exact absurd hl this)
            refine ⟨stranded, ?_, hCstr⟩
            rw [planLoop_succ_cons, if_neg he, hstr]

/-! ### Level indices and the C1 claim -/

theorem get?_lt_length {α : Type} (l : List α) (n : Nat) (a : α)
    (h : l.get? n = some a) : n < l.length := by
  by_contra hc
  push_neg at hc
  rw [List.get?_eq_none.mpr hc] at h
  exact absurd h (by simp)

/-- When the flattened plan has no duplicates, `levelIdx` recovers the index
of the one level containing a node. -/
theorem levelIdx_eq (plan : List (List String)) (hnd : plan.flatten.Nodup) :
    ∀ i lvl b, plan.get? i = some lvl → b ∈ lvl → levelIdx plan b = i := by
  induction plan with
  | nil => intro i lvl b hget; simp at hget
  | cons lvl0 rest ih =>
      intro i lvl b hget hb
      rw [List.flatten_cons] at hnd
      cases i with
      | zero =>
          simp only [List.get?] at hget
          injection hget with hget
          subst hget
          simp [levelIdx, List.findIdx_cons, hb]
      | succ j =>
          simp only [List.get?] at hget
          have hbrest : b ∈ rest.flatten :=
            List.mem_flatten.mpr ⟨lvl, List.get?_mem hget, hb⟩
          have hnotlvl0 : b ∉ lvl0 :=
            fun hl => (List.disjoint_of_nodup_append hnd) hl hbrest
          have ihj := ih (hnd.of_append_right) j lvl b hget hb
          simp [levelIdx] at ihj
          simp [levelIdx, List.findIdx_cons, hnotlvl0, ihj]

/-- The definition's edge relation. -/
def edgeMem (edges : List (String × String)) (x y : String) : Prop :=
  (x, y) ∈ edges

/-- A cycle of the edge relation, as a nonempty list of nodes each linked to
the next and the last linked back to the first. -/
def IsEdgeCycle (edges : List (String × String)) : List String → Prop
  | [] => False
  | a :: rest => List.Chain (edgeMem edges) a (rest ++ [a])

/-- A single edge between two distinct nodes admits no cycle. -/
theorem singleEdgeAcyclic (x y : String) (hxy : x ≠ y) :
    ∀ n, ¬ Relation.TransGen (edgeMem [(x, y)]) n n := by
  have hstep : ∀ a b, edgeMem [(x, y)] a b → a = x ∧ b = y := by
    intro a b h
    simpa [edgeMem, Prod.ext_iff] using h
  have hsnd : ∀ a b, Relation.TransGen (edgeMem [(x, y)]) a b → b = y := by
    intro a b h
    induction h with
    | single h => exact (hstep _ _ h).2
    | tail _ h _ => exact (hstep _ _ h).2
  have hfst : ∀ a b, Relation.TransGen (edgeMem [(x, y)]) a b → a = x := by
    intro a b h
    induction h with
    | single h => exact (hstep _ _ h).1
    | tail h _ ih => exact ih
  intro n hn
    
  exact hxy ((hfst n n hn).symm.trans (hsnd n n hn))

/-- Claim C1, counterexample: the workflow with nodes "" and "t" and the
single edge "" -> "t" is acyclic and both edge endpoints are keys of the
nodes map, yet the planner puts both nodes in level 0 — `if source and
target:` treats the empty-string node id as falsy and drops the edge — so
the source's level index is not strictly below the target's.
(`singleEdgeAcyclic "" "t"` machine-checks the acyclicity of this input.) -/
theorem emptyId_edge_breaks_level_order :
    buildExecutionPlan ["", "t"] [("", "t")] = .ok [["", "t"]]
    ∧ ¬ (levelIdx [["", "t"]] "" < levelIdx [["", "t"]] "t") := by
  exact ⟨rfl, by decide⟩

/-- Claim C1, amended with nonempty node ids (forced by the counterexample:
the planner drops any edge with an empty-string endpoint): for every acyclic
workflow definition whose edge endpoints are keys of the nodes map and are
nonempty, the planner succeeds, the concatenation of its levels is a
permutation of the node ids (each appears exactly once), and every edge's
source sits in a strictly earlier level than its target. -/
theorem buildExecutionPlan_levels_of_acyclic
    (nodes : List String) (edges : List (String × String))
    (hnd : nodes.Nodup)
    (hsrc : ∀ e ∈ edges, e.1 ∈ nodes)
    (htgt : ∀ e ∈ edges, e.2 ∈ nodes)
    (hne : ∀ e ∈ edges, e.1 ≠ "" ∧ e.2 ≠ "")
    (hacyc : ∀ n, ¬ Relation.TransGen (edgeMem edges) n n) :
    ∃ plan, buildExecutionPlan nodes edges = .ok plan
      ∧ List.Perm plan.flatten nodes
      ∧ ∀ e ∈ edges, levelIdx plan e.1 < levelIdx plan e.2 := by
  obtain ⟨D, hD⟩ := buildDepsList_isSome edges (initDeps nodes)
    (fun e he _ _ => by rw [initDeps_keys]; exact htgt e he)
  obtain ⟨-, hchar⟩ := buildDepsList_spec edges (initDeps nodes) D hD
  have hchar2 : ∀ n a, a ∈ depsGet D n ↔ (a, n) ∈ edges := by
    intro n a
    rw [hchar n a, depsGet_initDeps]
    constructor
    · rintro (hfalse | ⟨hm, -, -⟩)
      · exact absurd hfalse (List.not_mem_nil a)
      · exact hm
    · intro hm
      exact Or.inr ⟨hm, (hne _ hm).1, (hne _ hm).2⟩
  have hclose : ∀ b a, a ∈ depsGet D b → a ∈ nodes :=
    fun b a ha => hsrc _ ((hchar2 b a).mp ha)
  have hacyc2 : ∀ n, ¬ Relation.TransGen (fun a b => a ∈ depsGet D b) n n :=
    fun n hn => hacyc n (hn.mono (fun a b h => (hchar2 b a).mp h))
  obtain ⟨plan, hplan⟩ := planLoop_ok_of_acyclic D nodes hclose hacyc2
    nodes.length [] nodes (le_refl _) (fun x hx => Or.inr hx) (fun _ hx => hx)
  have hbuild : buildExecutionPlan nodes edges = .ok plan := by
    simp [buildExecutionPlan, hD, hplan]
  have hperm := planLoop_ok_perm D nodes.length [] nodes plan hplan
  have hndflat : plan.flatten.Nodup := hperm.nodup_iff.mpr hnd
  refine ⟨plan, hbuild, hperm, ?_⟩
  intro e he
  obtain ⟨a, b⟩ := e
  have hb : b ∈ plan.flatten := hperm.mem_iff.mpr (htgt (a, b) he)
  obtain ⟨lvl, hlvlmem, hblvl⟩ := List.mem_flatten.mp hb
  obtain ⟨i, hgeti⟩ := List.mem_iff_get?.mp hlvlmem
  have hstep := planLoop_ok_level_deps D nodes.length [] nodes plan hplan
    i lvl hgeti b hblvl a ((hchar2 b a).mpr he)
  rcases hstep with habs | htake
  · exact absurd habs (List.not_mem_nil a)
  · obtain ⟨lvlj, hlvljmem, halvlj⟩ := List.mem_flatten.mp htake
    obtain ⟨j, hgetjtake⟩ := List.mem_iff_get?.mp hlvljmem
    have hjlt : j < i := by
      have h1 := get?_lt_length _ j lvlj hgetjtake
      have h2 : (plan.take i).length ≤ i := by
        rw [List.length_take]
        exact Nat.min_le_left i plan.length
      omega
    have hgetj : plan.get? j = some lvlj := by
      rw [← List.get?_take hjlt]
      exact hgetjtake
    have hidxb := levelIdx_eq plan hndflat i lvl b hgeti hblvl
    have hidxa := levelIdx_eq plan hndflat j lvlj a hgetj halvlj
    simpa [hidxa, hidxb] using hjlt

/-- Witness for C1 at a concrete input: two nodes "a", "b" with the edge
"a" -> "b" — the plan exists, covers both nodes once, and places "a" before
"b". -/
theorem buildExecutionPlan_levels_witness :
    ∃ plan, buildExecutionPlan ["a", "b"] [("a", "b")] = .ok plan
      ∧ List.Perm plan.flatten ["a", "b"]
      ∧ ∀ e ∈ [("a", "b")], levelIdx plan e.1 < levelIdx plan e.2 :=
  buildExecutionPlan_levels_of_acyclic ["a", "b"] [("a", "b")]
    (by decide) (by decide) (by decide) (by decide)
    (singleEdgeAcyclic "a" "b" (by decide))

/-! ### Cycles: chain lemmas and the planner's cycle error -/

theorem chain_pred {α : Type} (R : α → α → Prop) :
    ∀ (a : α) (l : List α), List.Chain R a l → ∀ b ∈ l, ∃ x ∈ a :: l, R x b := by
  intro a l
  induction l generalizing a with
  | nil => intro _ b hb; simp at hb
  | cons c l2 ih =>
      intro hch b hb
      rw [List.chain_cons] at hch
      rcases List.mem_cons.mp hb with rfl | hb2
      · exact ⟨a, List.mem_cons_self a _, hch.1⟩
      · obtain ⟨x, hx, hR⟩ := ih c hch.2 b hb2
        exact ⟨x, List.mem_cons_of_mem a hx, hR⟩

theorem chain_last_transGen {α : Type} (R : α → α → Prop) :
    ∀ (l : List α) (a b : α), List.Chain R a (l ++ [b]) → Relation.TransGen R a b := by
  intro l
  induction l with
  | nil =>
      intro a b hch
      rw [List.nil_append, List.chain_cons] at hch
      exact Relation.TransGen.single hch.1
  | cons c l2 ih =>
      intro a b hch
      rw [List.cons_append, List.chain_cons] at hch
      exact Relation.TransGen.head hch.1 (ih c b hch.2)

/-- Every node of a cycle has a predecessor inside the cycle. -/
theorem cycle_pred (edges : List (String × String)) (a : String) (rest : List String)
    (hcyc : IsEdgeCycle edges (a :: rest)) :
    ∀ b ∈ a :: rest, ∃ x ∈ a :: rest, (x, b) ∈ edges := by
  intro b hb
  have hch : List.Chain (edgeMem edges) a (rest ++ [a]) := hcyc
  have hbmem : b ∈ rest ++ [a] := by
    rcases List.mem_cons.mp hb with rfl | hb2
    · exact List.mem_append.mpr (Or.inr (List.mem_singleton.mpr rfl))
    · exact List.mem_append.mpr (Or.inl hb2)
  obtain ⟨x, hx, hR⟩ := chain_pred (edgeMem edges) a (rest ++ [a]) hch b hbmem
  refine ⟨x, ?_, hR⟩
  rcases List.mem_cons.mp hx with rfl | hx2
  · exact List.mem_cons_self x rest
  · rcases List.mem_append.mp hx2 with hx3 | hx3
    · exact List.mem_cons_of_mem a hx3
    · rw [List.mem_singleton.mp hx3]
      exact List.mem_cons_self a rest

/-- The planner half of claim C6: a cycle of nonempty node ids inside the
nodes map strands all its nodes, the loop raises the cyclic-dependency
error, and the stranded list it reports contains every node of the cycle;
no plan is produced. -/
theorem buildExecutionPlan_cycle_error
    (nodes : List String) (edges : List (String × String)) (c : List String)
    (hcyc : IsEdgeCycle edges c)
    (hsub : ∀ x ∈ c, x ∈ nodes)
    (hcne : ∀ x ∈ c, x ≠ "")
    (hvalid : ∀ e ∈ edges, e.1 ≠ "" → e.2 ≠ "" → e.2 ∈ nodes) :
    ∃ stranded, buildExecutionPlan nodes edges = .error (.cyclic stranded)
      ∧ ∀ x ∈ c, x ∈ stranded := by
  obtain ⟨D, hD⟩ := buildDepsList_isSome edges (initDeps nodes)
    (fun e he h1 h2 => by rw [initDeps_keys]; exact hvalid e he h1 h2)
  obtain ⟨-, hchar⟩ := buildDepsList_spec edges (initDeps nodes) D hD
  have hCne : c ≠ [] := by
    intro h
    rw [h] at hcyc
    exact hcyc
  obtain ⟨a, rest, rfl⟩ : ∃ a rest, c = a :: rest := by
    cases c with
    | nil => exact absurd rfl hCne
    | cons a rest => exact ⟨a, rest, rfl⟩
  have hpred : ∀ b ∈ a :: rest, ∃ x ∈ a :: rest, x ∈ depsGet D b := by
    intro b hb
    obtain ⟨x, hx, hR⟩ := cycle_pred edges a rest hcyc b hb
    refine ⟨x, hx, ?_⟩
    rw [hchar b x, depsGet_initDeps]
    exact Or.inr ⟨hR, hcne x hx, hcne b hb⟩
  obtain ⟨stranded, hloop, hcsub⟩ := planLoop_error_of_cycle D (a :: rest)
    (by simp) hpred nodes.length [] nodes hsub (by simp)
  refine ⟨stranded, ?_, hcsub⟩
  simp [buildExecutionPlan, hD, hloop]

/-! ## Validator cycle check
workflow_components.py `_check_for_cycles` lines 213-239 and
`_dfs_cycle_check_recursive` lines 241-261.  The recursion stack set and the
current path list are kept in lockstep by the source (add/append on entry,
remove/pop on exit), so the stack is modelled as membership in the path.
The path is kept in Python order (oldest first; the current node is
appended at the end).  `visited` is threaded through and returned.  The
recursion depth is bounded by the number of distinct unvisited nodes, so
fuel `|nodes ++ all adjacency targets| + 1` (what `checkForCycles` passes)
is enough and the fuel-0 fallthrough is unreachable. -/

/-- `current_path[current_path.index(v):] + [v]`: the rendered cycle,
joined with " -> " into the WorkflowCycleError message by the source. -/
def renderCyclePath (v : String) (path : List String) : List String :=
  path.drop (path.indexOf v) ++ [v]

/-- The `for v in graph.get(u, []):` loop body threading visited through,
stopping at the first raised error. -/
def dfsFold (step : String → List String → Except (List String) (List String)) :
    List String → List String → Except (List String) (List String)
  | [], vis => .ok vis
  | v :: vs, vis =>
      match step v vis with
      | .error e => .error e
      | .ok vis2 => dfsFold step vs vis2

/-- `_dfs_cycle_check_recursive(u, graph, visited, recursion_stack,
current_path)`: mark u visited, push it, then for each neighbor v: recurse
when unvisited, raise the rendered cycle when v is on the stack, else skip;
finally pop u (popping is implicit: the caller's `path` was never
extended). -/
def dfsVisit (g : String → List String) : Nat → String → List String → List String →
    Except (List String) (List String)
  | 0, _, vis, _ => .ok vis
  | fuel + 1, u, vis, path =>
      dfsFold (fun v vis2 =>
          if v ∈ vis2 then
            if v ∈ path ++ [u] then .error (renderCyclePath v (path ++ [u]))
            else .ok vis2
          else dfsVisit g fuel v vis2 (path ++ [u]))
        (g u) (u :: vis)

/-- The `for node_id in nodes: if node_id not in visited: dfs(...)` loop of
lines 232-238. -/
def cycleScan (g : String → List String) (fuel : Nat) :
    List String → List String → Except (List String) Unit
  | [], _ => .ok ()
  | n :: rest, vis =>
      if n ∈ vis then cycleScan g fuel rest vis
      else
        match dfsVisit g fuel n vis [] with
        | .error e => .error e
        | .ok vis2 => cycleScan g fuel rest vis2

/-- `graph.get(u, [])`. -/
def graphGet (graph : List (String × List String)) (u : String) : List String :=
  match graph.find? (fun p => p.1 = u) with
  | some p => p.2
  | none => []

/-- The cycle check over a built adjacency dict: raises (returns) the first
rendered cycle, or finishes with no cycle found. -/
def checkForCycles (nodes : List String) (graph : List (String × List String)) :
    Except (List String) Unit :=
  cycleScan (graphGet graph) ((nodes ++ (graph.map Prod.snd).flatten).length + 1)
    nodes []

/-- One step of the adjacency relation of a graph function. -/
def gstep (g : String → List String) (x y : String) : Prop := y ∈ g x

/-- A cycle of the graph's adjacency relation. -/
def IsGraphCycle (g : String → List String) : List String → Prop
  | [] => False
  | a :: rest => List.Chain (gstep g) a (rest ++ [a])

/-- A node is safe when nothing reachable from it lies on a cycle. -/
def SafeNode (g : String → List String) (u : String) : Prop :=
  ∀ x, Relation.ReflTransGen (gstep g) u x → ¬ Relation.TransGen (gstep g) x x

/-- Number of distinct not-yet-visited nodes of the universe: the DFS
recursion measure. -/
def cntUnvisited (univ visited : List String) : Nat :=
  ((univ.dedup).filter (fun x => !visited.contains x)).length

theorem filter_length_mono {α : Type} (l : List α) (p q : α → Bool)
    (h : ∀ x, q x = true → p x = true) :
    (l.filter q).length ≤ (l.filter p).length := by
  induction l with
  | nil => simp
  | cons x rest ih =>
      cases hq : q x with
      | true =>
          rw [List.filter_cons_of_pos hq, List.filter_cons_of_pos (h x hq)]
          simpa using ih
      | false =>
          rw [List.filter_cons_of_neg (by simp [hq])]
          cases hp : p x with
          | true =>
              rw [List.filter_cons_of_pos hp]
              exact Nat.le_succ_of_le ih
          | false =>
              rw [List.filter_cons_of_neg (by simp [hp])]
              exact ih

theorem filter_length_strict {α : Type} (l : List α) (p q : α → Bool)
    (h : ∀ x, q x = true → p x = true) (x0 : α) (hx0 : x0 ∈ l)
    (hp : p x0 = true) (hq : q x0 = false) :
    (l.filter q).length < (l.filter p).length := by
  induction l with
  | nil => simp at hx0
  | cons y rest ih =>
      cases hqy : q y with
      | true =>
          have hne : y ≠ x0 := fun he => by rw [he, hq] at hqy; exact absurd hqy (by simp)
          have hx0r : x0 ∈ rest := by
            rcases List.mem_cons.mp hx0 with he | hr
            · exact absurd he.symm hne
            · exact hr
          rw [List.filter_cons_of_pos hqy, List.filter_cons_of_pos (h y hqy)]
          simpa using ih hx0r
      | false =>
          rw [List.filter_cons_of_neg (by simp [hqy])]
          cases hpy : p y with
          | true =>
              rw [List.filter_cons_of_pos hpy]
              exact Nat.lt_succ_of_le (filter_length_mono rest p q h)
          | false =>
              have hne : y ≠ x0 := fun he => by rw [he, hp] at hpy; exact absurd hpy (by simp)
              have hx0r : x0 ∈ rest := by
                rcases List.mem_cons.mp hx0 with he | hr
                · exact absurd he.symm hne
                · exact hr
              rw [List.filter_cons_of_neg (by simp [hpy])]
              exact ih hx0r

theorem cntUnvisited_le (univ vis vis2 : List String) (h : ∀ x ∈ vis, x ∈ vis2)
    : cntUnvisited univ vis2 ≤ cntUnvisited univ vis := by
  refine filter_length_mono _ _ _ ?_
  intro x hx
  cases hc : vis.contains x with
  | false => rfl
  | true =>
      have hm : x ∈ vis2 := h x (List.elem_iff.mp hc)
      have hc2 : vis2.contains x = true := List.elem_iff.mpr hm
      rw [hc2] at hx
      exact absurd hx (by simp)

theorem cntUnvisited_lt (univ vis : List String) (u : String)
    (hu : u ∈ univ) (hnv : u ∉ vis) :
    cntUnvisited univ (u :: vis) < cntUnvisited univ vis := by
  refine filter_length_strict _ _ _ ?_ u (List.mem_dedup.mpr hu) ?_ ?_
  · intro x hx
    cases hc : vis.contains x with
    | false => rfl
    | true =>
        have hm : x ∈ u :: vis := List.mem_cons_of_mem u (List.elem_iff.mp hc)
        have hc2 : (u :: vis).contains x = true := List.elem_iff.mpr hm
        rw [hc2] at hx
        exact absurd hx (by simp)
  · cases hc : vis.contains u with
    | false => rfl
    | true => exact absurd (List.elem_iff.mp hc) hnv
  · have : u ∈ u :: vis := List.mem_cons_self u vis
    simp [List.elem_iff.mpr this]

theorem cntUnvisited_pos (univ vis : List String) (u : String)
    (hu : u ∈ univ) (hnv : u ∉ vis) : 0 < cntUnvisited univ vis := by
  have hmem : u ∈ (univ.dedup).filter (fun x => !vis.contains x) := by
    refine List.mem_filter.mpr ⟨List.mem_dedup.mpr hu, ?_⟩
    cases hc : vis.contains u with
    | false => rfl
    | true => exact absurd (List.elem_iff.mp hc) hnv
  exact List.length_pos.mpr (List.ne_nil_of_mem hmem)

theorem safe_of_neighbors (g : String → List String) (u : String)
    (h : ∀ v ∈ g u, SafeNode g v) : SafeNode g u := by
  intro x hreach hcyc
  rcases Relation.ReflTransGen.cases_head hreach with rfl | ⟨v, hv, hvx⟩
  · obtain ⟨v, hv, hvu⟩ := Relation.TransGen.head'_iff.mp hcyc
    exact h v hv u hvu hcyc
  · exact h v hv x hvx hcyc

theorem dfsVisit_zero (g : String → List String) (u : String)
    (vis path : List String) : dfsVisit g 0 u vis path = .ok vis := rfl

theorem dfsVisit_succ (g : String → List String) (fuel : Nat) (u : String)
    (vis path : List String) :
    dfsVisit g (fuel + 1) u vis path =
      dfsFold (fun v vis2 =>
          if v ∈ vis2 then
            if v ∈ path ++ [u] then .error (renderCyclePath v (path ++ [u]))
            else .ok vis2
          else dfsVisit g fuel v vis2 (path ++ [u]))
        (g u) (u :: vis) := rfl

/-- The generic shape of the neighbor loop on a successful pass: an
invariant `P` on the threaded visited set is preserved, the set only grows,
and every processed neighbor satisfies `Q`. -/
theorem dfsFold_ok_ind
    (step : String → List String → Except (List String) (List String))
    (P : List String → Prop) (Q : String → Prop) :
    ∀ ns, (∀ v ∈ ns, ∀ vis vis2, P vis → step v vis = .ok vis2 →
        P vis2 ∧ (∀ x ∈ vis, x ∈ vis2) ∧ Q v) →
    ∀ vis vis2, P vis → dfsFold step ns vis = .ok vis2 →
      P vis2 ∧ (∀ x ∈ vis, x ∈ vis2) ∧ ∀ v ∈ ns, Q v := by
  intro ns
  induction ns with
  | nil =>
      intro _ vis vis2 hP h
      unfold dfsFold at h
      injection h with h
      subst h
      exact ⟨hP, fun x hx => hx, by simp⟩
  | cons v vs ih =>
      intro hstep vis vis2 hP h
      unfold dfsFold at h
      cases hs : step v vis with
      | error e => rw [hs] at h; exact absurd h (by simp)
      | ok vis1 =>
          rw [hs] at h
          obtain ⟨hP1, hsub1, hQ⟩ :=
            hstep v (List.mem_cons_self v vs) vis vis1 hP hs
          obtain ⟨hP2, hsub2, hQs⟩ :=
            ih (fun w hw => hstep w (List.mem_cons_of_mem v hw)) vis1 vis2 hP1 h
          refine ⟨hP2, fun x hx => hsub2 x (hsub1 x hx), ?_⟩
          intro w hw
          rcases List.mem_cons.mp hw with rfl | hw2
          · exact hQ
          · exact hQs w hw2

/-- The main invariant of a successful DFS call: visited only grows, the
visited node is marked, every visited node off the current stack is safe,
and every newly visited node belongs to the universe. -/
theorem dfsVisit_ok_spec (g : String → List String) (univ : List String)
    (hgclosed : ∀ x y, y ∈ g x → y ∈ univ) :
    ∀ fuel u vis path vis2,
      u ∈ univ → u ∉ vis →
      (∀ x ∈ path, x ∈ vis) →
      (∀ w ∈ vis, w ∉ path → SafeNode g w) →
      cntUnvisited univ vis ≤ fuel →
      dfsVisit g fuel u vis path = .ok vis2 →
      (∀ x ∈ vis, x ∈ vis2) ∧ u ∈ vis2
        ∧ (∀ w ∈ vis2, w ∉ path → SafeNode g w)
        ∧ (∀ w ∈ vis2, w ∉ vis → w ∈ univ)
        ∧ cntUnvisited univ vis2 ≤ fuel := by
  intro fuel
  induction fuel with
  | zero =>
      intro u vis path vis2 hu hnvis _ _ hcnt _
      exact absurd hcnt (by
        have := cntUnvisited_pos univ vis u hu hnvis
        omega)
  | succ fuel ih =>
      intro u vis path vis2 hu hnvis hpath hInv hcnt h
      rw [dfsVisit_succ] at h
      have hstephyp : ∀ v ∈ g u, ∀ vis1 vis1b,
          ((∀ x ∈ u :: vis, x ∈ vis1)
            ∧ (∀ x ∈ path ++ [u], x ∈ vis1)
            ∧ (∀ w ∈ vis1, w ∉ path ++ [u] → SafeNode g w)
            ∧ (∀ w ∈ vis1, w ∉ vis → w ∈ univ)
            ∧ cntUnvisited univ vis1 ≤ fuel) →
          (if v ∈ vis1 then
            if v ∈ path ++ [u] then
              Except.error (renderCyclePath v (path ++ [u]))
            else Except.ok vis1
          else dfsVisit g fuel v vis1 (path ++ [u])) = .ok vis1b →
          ((∀ x ∈ u :: vis, x ∈ vis1b)
            ∧ (∀ x ∈ path ++ [u], x ∈ vis1b)
            ∧ (∀ w ∈ vis1b, w ∉ path ++ [u] → SafeNode g w)
            ∧ (∀ w ∈ vis1b, w ∉ vis → w ∈ univ)
            ∧ cntUnvisited univ vis1b ≤ fuel)
          ∧ (∀ x ∈ vis1, x ∈ vis1b) ∧ SafeNode g v := by
        intro v hv vis1 vis1b hP hstep
        obtain ⟨hP1, hP2, hP3, hP4, hP5⟩ := hP
        by_cases hvin : v ∈ vis1
        · rw [if_pos hvin] at hstep
          by_cases hvpath : v ∈ path ++ [u]
          · rw [if_pos hvpath] at hstep
            exact absurd hstep (by simp)
          · rw [if_neg hvpath] at hstep
            injection hstep with hstep
            subst hstep
            exact ⟨⟨hP1, hP2, hP3, hP4, hP5⟩, fun x hx => hx, hP3 v hvin hvpath⟩
        · rw [if_neg hvin] at hstep
          have hvuniv : v ∈ univ := hgclosed u v hv
          have hrec := ih v vis1 (path ++ [u]) vis1b hvuniv hvin hP2
            hP3 hP5 hstep
          obtain ⟨hr1, hr2, hr3, hr4, hr5⟩ := hrec
          have hvnotpath : v ∉ path ++ [u] := fun hvp => hvin (hP2 v hvp)
          have hsafev : SafeNode g v := hr3 v hr2 hvnotpath
          refine ⟨⟨fun x hx => hr1 x (hP1 x hx),
            fun x hx => hr1 x (hP2 x hx), hr3, ?_, ?_⟩,
            hr1, hsafev⟩
          · intro w hw hwvis
            by_cases hw1 : w ∈ vis1
            · exact hP4 w hw1 hwvis
            · exact hr4 w hw hw1
          · have hlt : cntUnvisited univ (v :: vis1) < cntUnvisited univ vis1 :=
              cntUnvisited_lt univ vis1 v hvuniv hvin
            have hle : cntUnvisited univ vis1b ≤ cntUnvisited univ (v :: vis1) := by
              refine cntUnvisited_le univ (v :: vis1) vis1b ?_
              intro x hx
              rcases List.mem_cons.mp hx with rfl | hx2
              · exact hr2
              · exact hr1 x hx2
            omega
      have hinit : (∀ x ∈ u :: vis, x ∈ u :: vis)
          ∧ (∀ x ∈ path ++ [u], x ∈ u :: vis)
          ∧ (∀ w ∈ u :: vis, w ∉ path ++ [u] → SafeNode g w)
          ∧ (∀ w ∈ u :: vis, w ∉ vis → w ∈ univ)
          ∧ cntUnvisited univ (u :: vis) ≤ fuel := by
        refine ⟨fun x hx => hx, ?_, ?_, ?_, ?_⟩
        · intro x hx
          rcases List.mem_append.mp hx with h3 | h3
          · exact List.mem_cons_of_mem u (hpath x h3)
          · exact (List.mem_singleton.mp h3) ▸ List.mem_cons_self u vis
        · intro w hw hwpath
          rcases List.mem_cons.mp hw with rfl | hw2
          · exact absurd (List.mem_append.mpr (Or.inr (List.mem_singleton.mpr rfl)))
              hwpath
          · refine hInv w hw2 ?_
            intro hw3
            exact hwpath (List.mem_append.mpr (Or.inl hw3))
        · intro w hw hwvis
          rcases List.mem_cons.mp hw with rfl | hw2
          · exact hu
          · exact absurd hw2 hwvis
        · have := cntUnvisited_lt univ vis u hu hnvis
          omega
      have hres := dfsFold_ok_ind _
        (fun vis1 => (∀ x ∈ u :: vis, x ∈ vis1)
          ∧ (∀ x ∈ path ++ [u], x ∈ vis1)
          ∧ (∀ w ∈ vis1, w ∉ path ++ [u] → SafeNode g w)
          ∧ (∀ w ∈ vis1, w ∉ vis → w ∈ univ)
          ∧ cntUnvisited univ vis1 ≤ fuel)
        (fun v => SafeNode g v)
        (g u) hstephyp (u :: vis) vis2 hinit h
      obtain ⟨⟨hP1, hP2, hP3, hP4, hP5⟩, _, hQ⟩ := hres
      have hsafeu : SafeNode g u := safe_of_neighbors g u hQ
      refine ⟨fun x hx => hP1 x (List.mem_cons_of_mem u hx),
        hP1 u (List.mem_cons_self u vis), ?_, hP4, by omega⟩
      intro w hw hwpath
      by_cases hwu : w = u
      · exact hwu ▸ hsafeu
      · refine hP3 w hw ?_
        intro hw2
        rcases List.mem_append.mp hw2 with h3 | h3
        · exact hwpath h3
        · exact hwu (List.mem_singleton.mp h3)

/-- When the scan over all nodes finishes without raising, every scanned
node is safe: no node of the list can reach a cycle. -/
theorem cycleScan_ok_safe (g : String → List String) (univ : List String)
    (hgclosed : ∀ x y, y ∈ g x → y ∈ univ) (fuel : Nat) :
    ∀ ns vis, (∀ n ∈ ns, n ∈ univ) →
      (∀ w ∈ vis, SafeNode g w) →
      cntUnvisited univ vis ≤ fuel →
      cycleScan g fuel ns vis = .ok () →
      ∀ n ∈ ns, SafeNode g n := by
  intro ns
  induction ns with
  | nil => intro vis _ _ _ _ n hn; simp at hn
  | cons n rest ih =>
      intro vis hns hvis hcnt h
      unfold cycleScan at h
      by_cases hnvis : n ∈ vis
      · rw [if_pos hnvis] at h
        intro m hm
        rcases List.mem_cons.mp hm with rfl | hm2
        · exact hvis m hnvis
        · exact ih vis (fun p hp => hns p (List.mem_cons_of_mem n hp))
            hvis hcnt h m hm2
      · rw [if_neg hnvis] at h
        cases hd : dfsVisit g fuel n vis [] with
        | error e => rw [hd] at h; exact absurd h (by simp)
        | ok vis2 =>
            rw [hd] at h
            have hspec := dfsVisit_ok_spec g univ hgclosed fuel n vis [] vis2
              (hns n (List.mem_cons_self n rest)) hnvis (by simp)
              (fun w hw _ => hvis w hw) hcnt hd
            obtain ⟨hs1, hs2, hs3, _, _⟩ := hspec
            have hvis2 : ∀ w ∈ vis2, SafeNode g w :=
              fun w hw => hs3 w hw (by simp)
            have hcnt2 : cntUnvisited univ vis2 ≤ fuel :=
              le_trans (cntUnvisited_le univ vis vis2 hs1) hcnt
            intro m hm
            rcases List.mem_cons.mp hm with rfl | hm2
            · exact hvis2 m hs2
            · exact ih vis2 (fun p hp => hns p (List.mem_cons_of_mem n hp))
                hvis2 hcnt2 h m hm2

/-- Completeness of the validator's cycle check: a cycle whose nodes are
among the scanned nodes forces the DFS to raise a WorkflowCycleError. -/
theorem checkForCycles_error_of_cycle (nodes : List String)
    (graph : List (String × List String)) (c : List String)
    (hcyc : IsGraphCycle (graphGet graph) c) (hsub : ∀ x ∈ c, x ∈ nodes) :
    ∃ e, checkForCycles nodes graph = .error e := by
  cases hres : checkForCycles nodes graph with
  | error e => exact ⟨e, rfl⟩
  | ok u =>
      exfalso
      obtain ⟨⟩ := u
      have hgclosed : ∀ x y, y ∈ graphGet graph x →
          y ∈ nodes ++ (graph.map Prod.snd).flatten := by
        intro x y hy
        unfold graphGet at hy
        cases hf : graph.find? (fun p => p.1 = x) with
        | none => rw [hf] at hy; exact absurd hy (by simp)
        | some p =>
            rw [hf] at hy
            refine List.mem_append.mpr (Or.inr ?_)
            refine List.mem_flatten.mpr ⟨p.2, ?_, hy⟩
            exact List.mem_map.mpr ⟨p, List.mem_of_find?_eq_some hf, rfl⟩
      have hcnt : cntUnvisited (nodes ++ (graph.map Prod.snd).flatten) [] ≤
          (nodes ++ (graph.map Prod.snd).flatten).length + 1 := by
        unfold cntUnvisited
        have h1 := List.Sublist.length_le
          (List.filter_sublist (l := (nodes ++ (graph.map Prod.snd).flatten).dedup)
            (p := fun x => !(List.contains [] x)))
        have h2 := List.Sublist.length_le
          (List.dedup_sublist (nodes ++ (graph.map Prod.snd).flatten))
        omega
      have hsafe := cycleScan_ok_safe (graphGet graph)
        (nodes ++ (graph.map Prod.snd).flatten) hgclosed
        ((nodes ++ (graph.map Prod.snd).flatten).length + 1) nodes []
        (fun n hn => List.mem_append.mpr (Or.inl hn))
        (by simp) hcnt hres
      obtain ⟨a, rest, rfl⟩ : ∃ a rest, c = a :: rest := by
        cases c with
        | nil => exact absurd hcyc (by simp [IsGraphCycle])
        | cons a rest => exact ⟨a, rest, rfl⟩
      have hcycle : Relation.TransGen (gstep (graphGet graph)) a a :=
        chain_last_transGen (gstep (graphGet graph)) rest a a hcyc
      exact hsafe a (hsub a (List.mem_cons_self a rest)) a
        Relation.ReflTransGen.refl hcycle

/-- The rendered slice `current_path[idx(v):] + [v]` is a genuine closed
walk of the graph: it starts and ends at v and every consecutive pair is an
edge. -/
theorem renderCyclePath_cycle (g : String → List String) (path : List String)
    (u v : String)
    (hchain : List.Chain' (gstep g) (path ++ [u]))
    (hv : v ∈ path ++ [u]) (hedge : v ∈ g u) :
    ∃ a mid, renderCyclePath v (path ++ [u]) = a :: mid ++ [a]
      ∧ List.Chain (gstep g) a (mid ++ [a]) := by
  have hi : (path ++ [u]).indexOf v < (path ++ [u]).length :=
    List.indexOf_lt_length.mpr hv
  have hdrop : (path ++ [u]).drop ((path ++ [u]).indexOf v)
      = v :: (path ++ [u]).drop ((path ++ [u]).indexOf v + 1) := by
    rw [List.drop_eq_get_cons hi, List.indexOf_get hi]
  have hile : (path ++ [u]).indexOf v ≤ path.length := by
    have hlen : (path ++ [u]).length = path.length + 1 := by simp
    omega
  have hlast : ((path ++ [u]).drop ((path ++ [u]).indexOf v)).getLast? = some u := by
    rw [List.drop_append_of_le_length hile]
    exact List.getLast?_concat _
  have hchaindrop : List.Chain' (gstep g)
      ((path ++ [u]).drop ((path ++ [u]).indexOf v)) := hchain.drop _
  have happ : List.Chain' (gstep g)
      ((path ++ [u]).drop ((path ++ [u]).indexOf v) ++ [v]) := by
    rw [List.chain'_append]
    refine ⟨hchaindrop, List.chain'_singleton v, ?_⟩
    intro x hx y hy
    rw [hlast] at hx
    simp at hx hy
    subst hx
    subst hy
    exact hedge
  refine ⟨v, (path ++ [u]).drop ((path ++ [u]).indexOf v + 1), ?_, ?_⟩
  · unfold renderCyclePath
    rw [hdrop]
  · rw [hdrop, List.cons_append] at happ
    exact happ

theorem dfsFold_error_ind
    (step : String → List String → Except (List String) (List String))
    (R2 : List String → Prop) :
    ∀ ns, (∀ v ∈ ns, ∀ vis e, step v vis = .error e → R2 e) →
    ∀ vis e, dfsFold step ns vis = .error e → R2 e := by
  intro ns
  induction ns with
  | nil =>
      intro _ vis e h
      unfold dfsFold at h
      exact absurd h (by simp)
  | cons v vs ih =>
      intro hstep vis e h
      unfold dfsFold at h
      cases hs : step v vis with
      | error e2 =>
          rw [hs] at h
          injection h with h
          subst h
          exact hstep v (List.mem_cons_self v vs) vis _ hs
      | ok vis2 =>
          rw [hs] at h
          exact ih (fun w hw => hstep w (List.mem_cons_of_mem v hw)) vis2 e h

/-- Any error a DFS call raises is a rendered cycle of the graph. -/
theorem dfsVisit_error_cycle (g : String → List String) :
    ∀ fuel u vis path e,
      List.Chain' (gstep g) (path ++ [u]) →
      dfsVisit g fuel u vis path = .error e →
      ∃ a mid, e = a :: mid ++ [a] ∧ List.Chain (gstep g) a (mid ++ [a]) := by
  intro fuel
  induction fuel with
  | zero =>
      intro u vis path e _ h
      rw [dfsVisit_zero] at h
      exact absurd h (by simp)
  | succ fuel ih =>
      intro u vis path e hchain h
      rw [dfsVisit_succ] at h
      refine dfsFold_error_ind _
        (fun e2 => ∃ a mid, e2 = a :: mid ++ [a]
          ∧ List.Chain (gstep g) a (mid ++ [a]))
        (g u) ?_ (u :: vis) e h
      intro v hv vis1 e2 hstep
      by_cases hvin : v ∈ vis1
      · rw [if_pos hvin] at hstep
        by_cases hvpath : v ∈ path ++ [u]
        · rw [if_pos hvpath] at hstep
          injection hstep with hstep
          subst hstep
          exact renderCyclePath_cycle g path u v hchain hvpath hv
        · rw [if_neg hvpath] at hstep
          exact absurd hstep (by simp)
      · rw [if_neg hvin] at hstep
        have hchain2 : List.Chain' (gstep g) ((path ++ [u]) ++ [v]) := by
          rw [List.chain'_append]
          refine ⟨hchain, List.chain'_singleton v, ?_⟩
          intro x hx y hy
          rw [List.getLast?_concat] at hx
          simp at hx hy
          subst hx
          subst hy
          exact hv
        exact ih v vis1 (path ++ [u]) e2 hchain2 hstep

theorem cycleScan_error_cycle (g : String → List String) (fuel : Nat) :
    ∀ ns vis e, cycleScan g fuel ns vis = .error e →
      ∃ a mid, e = a :: mid ++ [a] ∧ List.Chain (gstep g) a (mid ++ [a]) := by
  intro ns
  induction ns with
  | nil =>
      intro vis e h
      unfold cycleScan at h
      exact absurd h (by simp)
  | cons n rest ih =>
      intro vis e h
      unfold cycleScan at h
      by_cases hn : n ∈ vis
      · rw [if_pos hn] at h
        exact ih vis e h
      · rw [if_neg hn] at h
        cases hd : dfsVisit g fuel n vis [] with
        | error e2 =>
            rw [hd] at h
            injection h with h
            subst h
            exact dfsVisit_error_cycle g fuel n vis [] _
              (by simp) hd
        | ok vis2 =>
            rw [hd] at h
            exact ih vis2 e h

/-- Soundness of the validator's cycle check: a raised WorkflowCycleError
renders a genuine full cycle of the graph. -/
theorem checkForCycles_error_sound (nodes : List String)
    (graph : List (String × List String)) (e : List String)
    (h : checkForCycles nodes graph = .error e) :
    ∃ a mid, e = a :: mid ++ [a]
      ∧ List.Chain (gstep (graphGet graph)) a (mid ++ [a]) :=
  cycleScan_error_cycle (graphGet graph) _ nodes [] e h

/-! ### Claim C6: both checks report a cycle -/

/-- The targets of the edges leaving `n`, as `_check_for_cycles` records
them in its `graph` dict. -/
def edgeAdj (edges : List (String × String)) (n : String) : List String :=
  (edges.filter (fun e => e.1 = n)).map Prod.snd

/-- The definition's edge relation presented as the adjacency dict the
validator's DFS walks (one entry per node, targets of its out-edges). -/
def edgeGraph (nodes : List String) (edges : List (String × String)) :
    List (String × List String) :=
  nodes.map (fun n => (n, edgeAdj edges n))

theorem graphGet_edgeGraph (nodes : List String) (edges : List (String × String))
    (x : String) (hx : x ∈ nodes) :
    graphGet (edgeGraph nodes edges) x = edgeAdj edges x := by
  induction nodes with
  | nil => simp at hx
  | cons n rest ih =>
      by_cases hnx : n = x
      · subst hnx
        simp [edgeGraph, graphGet, List.find?]
      · have hx2 : x ∈ rest := by
          rcases List.mem_cons.mp hx with he | hr
          · exact absurd he.symm hnx
          · exact hr
        simpa [edgeGraph, graphGet, List.find?, hnx] using ih hx2

theorem chain_edge_to_graph (nodes : List String) (edges : List (String × String)) :
    ∀ (a : String) (l : List String), List.Chain (edgeMem edges) a l →
      (∀ x ∈ a :: l, x ∈ nodes) →
      List.Chain (gstep (graphGet (edgeGraph nodes edges))) a l := by
  intro a l
  induction l generalizing a with
  | nil => intro _ _; exact List.Chain.nil
  | cons c l2 ih =>
      intro hch hmem
      rw [List.chain_cons] at hch ⊢
      refine ⟨?_, ih c hch.2 (fun x hx => hmem x (List.mem_cons_of_mem a hx))⟩
      show c ∈ graphGet (edgeGraph nodes edges) a
      rw [graphGet_edgeGraph nodes edges a (hmem a (List.mem_cons_self a _))]
      exact List.mem_map.mpr ⟨(a, c), List.mem_filter.mpr ⟨hch.1, by simp⟩, rfl⟩

/-- Claim C6, counterexample: the definition with the single node "" and the
self-loop edge "" -> "" contains a cycle in its edge relation, yet the
planner does not fail: `if source and target:` treats the empty-string id as
falsy, drops the edge, and produces the plan [[""]]. -/
theorem emptyId_selfLoop_planner_misses_cycle :
    IsEdgeCycle [("", "")] [""]
    ∧ buildExecutionPlan [""] [("", "")] = .ok [[""]] := by
  constructor
  · exact List.Chain.cons (by simp [edgeMem]) List.Chain.nil
  · rfl

/-- Claim C6, amended with nonempty node ids (forced by the counterexample:
the planner ignores edges with empty-string endpoints): for a workflow
definition whose edge relation contains a cycle of nonempty node ids that
are keys of the nodes map (and whose recorded edges land on keys, so the
dependency build raises no KeyError), the planner raises the cyclic
dependency error whose stranded-node list contains every node of the cycle
and produces no plan; and the validator's depth-first check on the same
edge relation (presented as its adjacency dict) raises a single
WorkflowCycleError whose message renders a full cycle: a node list starting
and ending at the same node, consecutive entries joined by edges. -/
theorem cycle_reported_by_planner_and_validator
    (nodes : List String) (edges : List (String × String)) (c : List String)
    (hcyc : IsEdgeCycle edges c)
    (hsub : ∀ x ∈ c, x ∈ nodes)
    (hcne : ∀ x ∈ c, x ≠ "")
    (hvalid : ∀ e ∈ edges, e.1 ≠ "" → e.2 ≠ "" → e.2 ∈ nodes) :
    (∃ stranded, buildExecutionPlan nodes edges = .error (.cyclic stranded)
      ∧ ∀ x ∈ c, x ∈ stranded)
    ∧ (∃ cycPath, checkForCycles nodes (edgeGraph nodes edges) = .error cycPath
      ∧ ∃ a mid, cycPath = a :: mid ++ [a]
        ∧ List.Chain (gstep (graphGet (edgeGraph nodes edges))) a (mid ++ [a])) := by
  refine ⟨buildExecutionPlan_cycle_error nodes edges c hcyc hsub hcne hvalid, ?_⟩
  obtain ⟨a, rest, rfl⟩ : ∃ a rest, c = a :: rest := by
    cases c with
    | nil => exact absurd hcyc (by simp [IsEdgeCycle])
    | cons a rest => exact ⟨a, rest, rfl⟩
  have hmem : ∀ x ∈ a :: (rest ++ [a]), x ∈ nodes := by
    intro x hx
    rcases List.mem_cons.mp hx with rfl | hx2
    · exact hsub x (List.mem_cons_self x rest)
    · rcases List.mem_append.mp hx2 with h3 | h3
      · exact hsub x (List.mem_cons_of_mem a h3)
      · rw [List.mem_singleton.mp h3]
        exact hsub a (List.mem_cons_self a rest)
  have hgc : IsGraphCycle (graphGet (edgeGraph nodes edges)) (a :: rest) :=
    chain_edge_to_graph nodes edges a (rest ++ [a]) hcyc hmem
  obtain ⟨e, he⟩ := checkForCycles_error_of_cycle nodes (edgeGraph nodes edges)
    (a :: rest) hgc hsub
  obtain ⟨a2, mid, hshape, hchain⟩ :=
    checkForCycles_error_sound nodes (edgeGraph nodes edges) e he
  exact ⟨e, he, a2, mid, hshape, hchain⟩

/-- Witness for C6 at a concrete input: the two-node cycle a -> b -> a is
reported by the planner (both nodes stranded) and by the validator's DFS
(a rendered closed walk). -/
theorem cycle_reported_witness :
    (∃ stranded, buildExecutionPlan ["a", "b"] [("a", "b"), ("b", "a")]
        = .error (.cyclic stranded) ∧ ∀ x ∈ ["a", "b"], x ∈ stranded)
    ∧ (∃ cycPath, checkForCycles ["a", "b"]
          (edgeGraph ["a", "b"] [("a", "b"), ("b", "a")]) = .error cycPath
      ∧ ∃ a2 mid, cycPath = a2 :: mid ++ [a2]
        ∧ List.Chain
            (gstep (graphGet (edgeGraph ["a", "b"] [("a", "b"), ("b", "a")])))
            a2 (mid ++ [a2])) :=
  cycle_reported_by_planner_and_validator ["a", "b"] [("a", "b"), ("b", "a")]
    ["a", "b"]
    (List.Chain.cons (by simp [edgeMem]) (List.Chain.cons (by simp [edgeMem])
      List.Chain.nil))
    (by decide) (by decide) (by decide)

/-! ### Claim C2: required nodes and per-level failure handling -/

/-- A node definition as `_is_node_required` reads it: only the
`required` flag matters (absent means the default True). -/
structure NodeDefR where
  required : Option Bool

/-- A declared workflow output as `_is_node_required` reads it: the
optional `node` field it references. -/
structure OutputDefR where
  node : Option String

/-- An edge dict with its `source` and `target` fields. -/
structure EdgeR where
  source : String
  target : String

/-- A workflow definition restricted to the fields the planner,
`_is_node_required` and `_execute_workflow_nodes` read. -/
structure WorkflowDefM where
  nodes : List (String × NodeDefR)
  edges : List EdgeR
  outputs : List (String × OutputDefR)

/-- `nodes_def.get(node_id, \x7b\x7d).get("required", True)`: an unknown
node id, or an absent flag, counts as required. -/
def nodeRequiredFlag (wf : WorkflowDefM) (n : String) : Bool :=
  (((lookupA wf.nodes n).getD ⟨none⟩).required).getD true

/-- `_is_node_required` (lines 774-806), with fuel for the unbounded
recursion over downstream edges. -/
def isNodeRequired (wf : WorkflowDefM) : Nat → String → Bool
  | 0, _ => false
  | fuel + 1, n =>
      if nodeRequiredFlag wf n then true
      else if wf.outputs.any (fun o => o.2.node == some n) then true
      else wf.edges.any (fun e => e.source == n && isNodeRequired wf fuel e.target)

/-- `_is_node_required` at the call sites: enough fuel for any repeat-free
chain of edges (a walk reaching a base case can always be shortened to
one, see `isNodeRequired_complete`). -/
def isRequiredB (wf : WorkflowDefM) (n : String) : Bool :=
  isNodeRequired wf (wf.edges.length + 1) n

/-- The spec's base case: explicitly marked required (or unknown /
unmarked, the default), or referenced by a declared workflow output. -/
def reqBase (wf : WorkflowDefM) (n : String) : Prop :=
  nodeRequiredFlag wf n = true ∨ ∃ o ∈ wf.outputs, o.2.node = some n

/-- One step along a recorded edge. -/
def edgeStepM (wf : WorkflowDefM) (a b : String) : Prop :=
  ∃ e ∈ wf.edges, e.source = a ∧ e.target = b

/-- The spec's characterization of "required": the node reaches, along
zero or more edges, a node that is a base case. -/
def ReqSpec (wf : WorkflowDefM) (n : String) : Prop :=
  ∃ m, Relation.ReflTransGen (edgeStepM wf) n m ∧ reqBase wf m

theorem isNodeRequired_sound (wf : WorkflowDefM) :
    ∀ fuel n, isNodeRequired wf fuel n = true → ReqSpec wf n := by
  intro fuel
  induction fuel with
  | zero => intro n h; simp [isNodeRequired] at h
  | succ fuel ih =>
      intro n h
      unfold isNodeRequired at h
      by_cases hflag : nodeRequiredFlag wf n
      · exact ⟨n, Relation.ReflTransGen.refl, Or.inl hflag⟩
      · rw [if_neg hflag] at h
        by_cases hout : wf.outputs.any (fun o => o.2.node == some n)
        · obtain ⟨o, ho, hoeq⟩ := List.any_eq_true.mp hout
          exact ⟨n, Relation.ReflTransGen.refl, Or.inr ⟨o, ho, by simpa using hoeq⟩⟩
        · rw [if_neg hout] at h
          obtain ⟨e, he, heq⟩ := List.any_eq_true.mp h
          rw [Bool.and_eq_true] at heq
          obtain ⟨m, hwalk, hbase⟩ := ih e.target heq.2
          refine ⟨m, Relation.ReflTransGen.head ⟨e, he, ?_, rfl⟩ hwalk, hbase⟩
          simpa using heq.1

/-- Along a chain of edges ending in a base case, `_is_node_required`
answers true given fuel exceeding the chain length. -/
theorem isNodeRequired_of_chain (wf : WorkflowDefM) :
    ∀ (l : List String) (n : String), List.Chain (edgeStepM wf) n l →
      reqBase wf ((n :: l).getLast (List.cons_ne_nil n l)) →
      ∀ fuel, l.length < fuel → isNodeRequired wf fuel n = true := by
  intro l
  induction l with
  | nil =>
      intro n _ hbase fuel hfuel
      obtain ⟨fuel, rfl⟩ : ∃ f, fuel = f + 1 := ⟨fuel - 1, by omega⟩
      unfold isNodeRequired
      rcases hbase with hflag | ⟨o, ho, hoeq⟩
      · simp only [List.getLast] at hflag
        rw [hflag]
        simp
      · by_cases hflag : nodeRequiredFlag wf n
        · simp [hflag]
        · rw [if_neg hflag, if_pos]
          exact List.any_eq_true.mpr ⟨o, ho, by simp only [List.getLast] at hoeq; simp [hoeq]⟩
  | cons b l2 ih =>
      intro n hchain hbase fuel hfuel
      obtain ⟨fuel, rfl⟩ : ∃ f, fuel = f + 1 := ⟨fuel - 1, by omega⟩
      rw [List.chain_cons] at hchain
      obtain ⟨⟨e, he, hes, het⟩, hchain2⟩ := hchain
      have hrec : isNodeRequired wf fuel b = true := by
        refine ih b hchain2 ?_ fuel (by simpa using Nat.lt_of_succ_lt_succ hfuel)
        simpa [List.getLast] using hbase
      unfold isNodeRequired
      by_cases hflag : nodeRequiredFlag wf n
      · simp [hflag]
      · rw [if_neg hflag]
        by_cases hout : wf.outputs.any (fun o => o.2.node == some n)
        · simp [hout]
        · rw [if_neg hout]
          exact List.any_eq_true.mpr ⟨e, he, by simp [hes, het, hrec]⟩

/-- Any reachability witness can be shortened to a repeat-free chain. -/
theorem exists_nodup_chain_of_reflTransGen (r : String → String → Prop) (a b : String)
    (h : Relation.ReflTransGen r a b) :
    ∃ l, List.Chain r a l ∧ (a :: l).getLast? = some b ∧ (a :: l).Nodup := by
  induction h using Relation.ReflTransGen.head_induction_on with
  | refl => exact ⟨[], List.Chain.nil, by simp, by simp⟩
  | head hstep htail ih =>
      rename_i a c
      obtain ⟨l, hch, hlast, hnd⟩ := ih
      by_cases ha : a ∈ c :: l
      · have hj : (c :: l).indexOf a < (c :: l).length := List.indexOf_lt_length.mpr ha
        have hdrop : (c :: l).drop ((c :: l).indexOf a)
            = a :: (c :: l).drop ((c :: l).indexOf a + 1) := by
          rw [List.drop_eq_get_cons hj, List.indexOf_get hj]
        refine ⟨(c :: l).drop ((c :: l).indexOf a + 1), ?_, ?_, ?_⟩
        · have hch2 : List.Chain' r (c :: l) := hch
          have := hch2.drop ((c :: l).indexOf a)
          rw [hdrop] at this
          exact this
        · rw [← hdrop, List.getLast?_drop, if_neg (by omega)]
          exact hlast
        · rw [← hdrop]
          exact hnd.sublist (List.drop_sublist _ _)
      · exact ⟨c :: l, List.chain_cons.mpr ⟨hstep, hch⟩,
          by rw [List.getLast?_cons_cons]; exact hlast,
          List.nodup_cons.mpr ⟨ha, hnd⟩⟩

theorem chain_edgeStep_targets (wf : WorkflowDefM) :
    ∀ (l : List String) (n : String), List.Chain (edgeStepM wf) n l →
      ∀ x ∈ l, x ∈ wf.edges.map (fun e => e.target) := by
  intro l
  induction l with
  | nil => intro n _ x hx; simp at hx
  | cons b l2 ih =>
      intro n hch x hx
      rw [List.chain_cons] at hch
      obtain ⟨⟨e, he, _, het⟩, hch2⟩ := hch
      rcases List.mem_cons.mp hx with rfl | hx2
      · exact List.mem_map.mpr ⟨e, he, het⟩
      · exact ih b hch2 x hx2

theorem isNodeRequired_complete (wf : WorkflowDefM) (n : String) (h : ReqSpec wf n) :
    isRequiredB wf n = true := by
  obtain ⟨m, hwalk, hbase⟩ := h
  obtain ⟨l, hch, hlast, hnd⟩ := exists_nodup_chain_of_reflTransGen _ _ _ hwalk
  have hlen : l.length ≤ wf.edges.length := by
    have hsub : l ⊆ wf.edges.map (fun e => e.target) :=
      fun x hx => chain_edgeStep_targets wf l n hch x hx
    have hndl : l.Nodup := (List.nodup_cons.mp hnd).2
    simpa using (List.subperm_of_subset hndl hsub).length_le
  refine isNodeRequired_of_chain wf l n hch ?_ _ (by omega)
  have hm : (n :: l).getLast (List.cons_ne_nil n l) = m := by
    rw [List.getLast?_eq_getLast (n :: l) (List.cons_ne_nil n l)] at hlast
    injection hlast
  rw [hm]
  exact hbase

theorem isRequiredB_iff (wf : WorkflowDefM) (n : String) :
    isRequiredB wf n = true ↔ ReqSpec wf n :=
  ⟨isNodeRequired_sound wf _ n, isNodeRequired_complete wf n⟩

/-- The entry stored for a non-required failed node (lines 529-532):
`\x7b"error": str(result), "status": "failed"\x7d`. -/
def failedRecord (msg : String) : Value :=
  .dict [("error", .s msg), ("status", .s "failed")]

/-- What `context.node_results[node_id]` holds for an executed node. -/
def recordOf (beh : String → Except String Value) (n : String) : Value :=
  match beh n with
  | .ok v => v
  | .error msg => failedRecord msg

/-- The result loop of lines 519-537 over one level's gathered results:
the first failed required node raises WorkflowError (carrying the results
stored so far), otherwise every result is stored (failures as
`failedRecord`). -/
def processLevelResults (req : String → Bool) (beh : String → Except String Value) :
    List String → List (String × Value) →
    Except (String × List (String × Value)) (List (String × Value))
  | [], acc => .ok acc
  | n :: rest, acc =>
      match beh n with
      | .ok v => processLevelResults req beh rest (setAssoc acc n v)
      | .error msg =>
          if req n then
            .error ("Required node " ++ n ++ " failed: " ++ msg, acc)
          else processLevelResults req beh rest (setAssoc acc n (failedRecord msg))

/-- The `for level, node_ids in enumerate(execution_plan)` loop of lines
496-537: execute levels in order, stopping at the first WorkflowError. -/
def execLevels (req : String → Bool) (beh : String → Except String Value) :
    List (List String) → List (String × Value) →
    Except (String × List (String × Value)) (List (String × Value))
  | [], acc => .ok acc
  | lvl :: rest, acc =>
      match processLevelResults req beh lvl acc with
      | .error e => .error e
      | .ok acc2 => execLevels req beh rest acc2

/-- `_execute_workflow_nodes` (lines 476-540): build the plan, then run
the levels; a run error carries the WorkflowError message and the node
results stored before the raise. `beh` gives each node's execution
outcome (the awaited task's value or its exception's message). -/
def executeWorkflowNodes (wf : WorkflowDefM) (beh : String → Except String Value) :
    Except PlanError
      (Except (String × List (String × Value)) (List (String × Value))) :=
  match buildExecutionPlan (wf.nodes.map Prod.fst)
      (wf.edges.map (fun e => (e.source, e.target))) with
  | .error pe => .error pe
  | .ok plan => .ok (execLevels (isRequiredB wf) beh plan [])

theorem buildExecutionPlan_ok_perm (nodes : List String)
    (edges : List (String × String)) (plan : List (List String))
    (h : buildExecutionPlan nodes edges = .ok plan) :
    List.Perm plan.flatten nodes := by
  unfold buildExecutionPlan at h
  cases hD : buildDepsList (initDeps nodes) edges with
  | none => rw [hD] at h; exact absurd h (by simp)
  | some deps =>
      rw [hD] at h
      cases hp : planLoop deps nodes.length [] nodes with
      | ok plan2 =>
          simp [hp] at h
          subst h
          exact planLoop_ok_perm deps _ _ _ _ hp
      | error s => simp [hp] at h

theorem processLevelResults_ok (req : String → Bool)
    (beh : String → Except String Value) :
    ∀ (lvl : List String) (acc : List (String × Value)),
      (∀ n ∈ lvl, ∀ msg, beh n = .error msg → req n = false) →
      ∃ acc2, processLevelResults req beh lvl acc = .ok acc2
        ∧ (∀ n ∈ lvl, lookupA acc2 n = some (recordOf beh n))
        ∧ (∀ m, m ∉ lvl → lookupA acc2 m = lookupA acc m) := by
  intro lvl
  induction lvl with
  | nil =>
      intro acc _
      exact ⟨acc, rfl, by simp, fun m _ => rfl⟩
  | cons n rest ih =>
      intro acc hreq
      have hset : ∃ w, processLevelResults req beh (n :: rest) acc
          = processLevelResults req beh rest (setAssoc acc n w)
          ∧ w = recordOf beh n := by
        cases hb : beh n with
        | ok v => exact ⟨v, by simp [processLevelResults, hb], by simp [recordOf, hb]⟩
        | error msg =>
            refine ⟨failedRecord msg, ?_, by simp [recordOf, hb]⟩
            simp [processLevelResults, hb, hreq n (List.mem_cons_self n rest) msg hb]
      obtain ⟨w, hw, hwval⟩ := hset
      obtain ⟨acc2, h1, h2, h3⟩ :=
        ih (setAssoc acc n w) (fun x hx => hreq x (List.mem_cons_of_mem n hx))
      refine ⟨acc2, by rw [hw]; exact h1, ?_, ?_⟩
      · intro x hx
        rcases List.mem_cons.mp hx with rfl | hx2
        · by_cases hxr : x ∈ rest
          · exact h2 x hxr
          · rw [h3 x hxr, lookupA_setAssoc_self, hwval]
        · exact h2 x hx2
      · intro m hm
        rw [h3 m (fun h2m => hm (List.mem_cons_of_mem n h2m)),
          lookupA_setAssoc_ne acc n m w (fun h2m => hm (h2m ▸ List.mem_cons_self n rest))]

theorem execLevels_ok (req : String → Bool) (beh : String → Except String Value) :
    ∀ (levels : List (List String)) (acc : List (String × Value)),
      (∀ n ∈ levels.flatten, ∀ msg, beh n = .error msg → req n = false) →
      ∃ acc2, execLevels req beh levels acc = .ok acc2
        ∧ (∀ n ∈ levels.flatten, lookupA acc2 n = some (recordOf beh n))
        ∧ (∀ m, m ∉ levels.flatten → lookupA acc2 m = lookupA acc m) := by
  intro levels
  induction levels with
  | nil =>
      intro acc _
      exact ⟨acc, rfl, by simp, fun m _ => rfl⟩
  | cons lvl rest ih =>
      intro acc hreq
      obtain ⟨acc1, h1, h2, h3⟩ := processLevelResults_ok req beh lvl acc
        (fun n hn => hreq n (by simp [List.mem_flatten]; exact Or.inl hn))
      obtain ⟨acc2, g1, g2, g3⟩ := ih acc1
        (fun n hn => hreq n (by rw [List.flatten_cons]; exact List.mem_append_right lvl hn))
      refine ⟨acc2, ?_, ?_, ?_⟩
      · unfold execLevels
        rw [h1]
        exact g1
      · intro n hn
        rw [List.flatten_cons] at hn
        rcases List.mem_append.mp hn with hn1 | hn2
        · by_cases hn2 : n ∈ rest.flatten
          · exact g2 n hn2
          · rw [g3 n hn2]
            exact h2 n hn1
        · exact g2 n hn2
      · intro m hm
        rw [List.flatten_cons] at hm
        rw [g3 m (fun h2m => hm (List.mem_append_right lvl h2m)),
          h3 m (fun h2m => hm (List.mem_append_left _ h2m))]

theorem lookupA_setAssoc_dom {α : Type} (acc : List (String × α)) (n m : String)
    (v : α) (h : lookupA (setAssoc acc n v) m ≠ none) :
    m = n ∨ lookupA acc m ≠ none := by
  by_cases hmn : m = n
  · exact Or.inl hmn
  · rw [lookupA_setAssoc_ne acc n m v hmn] at h
    exact Or.inr h

theorem processLevelResults_error (req : String → Bool)
    (beh : String → Except String Value) :
    ∀ (lvl : List String) (acc : List (String × Value)),
      (∃ n ∈ lvl, ∃ msg, beh n = .error msg ∧ req n = true) →
      ∃ id err acc2, processLevelResults req beh lvl acc
          = .error ("Required node " ++ id ++ " failed: " ++ err, acc2)
        ∧ id ∈ lvl ∧ req id = true ∧ beh id = .error err
        ∧ (∀ m, lookupA acc2 m ≠ none → m ∈ lvl ∨ lookupA acc m ≠ none) := by
  intro lvl
  induction lvl with
  | nil =>
      intro acc h
      obtain ⟨n, hn, _⟩ := h
      simp at hn
  | cons n rest ih =>
      intro acc hwit
      cases hb : beh n with
      | ok v =>
          have hwit2 : ∃ x ∈ rest, ∃ msg, beh x = .error msg ∧ req x = true := by
            obtain ⟨x, hx, msg, hbx, hrx⟩ := hwit
            rcases List.mem_cons.mp hx with rfl | hx2
            · rw [hb] at hbx; exact absurd hbx (by simp)
            · exact ⟨x, hx2, msg, hbx, hrx⟩
          obtain ⟨id, err, acc2, heq, hid, hrq, hbe, hdom⟩ :=
            ih (setAssoc acc n v) hwit2
          refine ⟨id, err, acc2, ?_, List.mem_cons_of_mem n hid, hrq, hbe, ?_⟩
          · rw [show processLevelResults req beh (n :: rest) acc
                = processLevelResults req beh rest (setAssoc acc n v) by
              simp [processLevelResults, hb]]
            exact heq
          · intro m hm
            rcases hdom m hm with hm2 | hm2
            · exact Or.inl (List.mem_cons_of_mem n hm2)
            · rcases lookupA_setAssoc_dom acc n m v hm2 with rfl | hm3
              · exact Or.inl (List.mem_cons_self m rest)
              · exact Or.inr hm3
      | error msg =>
          by_cases hrn : req n = true
          · refine ⟨n, msg, acc, ?_, List.mem_cons_self n rest, hrn, hb,
              fun m hm => Or.inr hm⟩
            simp [processLevelResults, hb, hrn]
          · have hwit2 : ∃ x ∈ rest, ∃ m2, beh x = .error m2 ∧ req x = true := by
              obtain ⟨x, hx, m2, hbx, hrx⟩ := hwit
              rcases List.mem_cons.mp hx with rfl | hx2
              · exact absurd hrx hrn
              · exact ⟨x, hx2, m2, hbx, hrx⟩
            obtain ⟨id, err, acc2, heq, hid, hrq, hbe, hdom⟩ :=
              ih (setAssoc acc n (failedRecord msg)) hwit2
            refine ⟨id, err, acc2, ?_, List.mem_cons_of_mem n hid, hrq, hbe, ?_⟩
            · rw [show processLevelResults req beh (n :: rest) acc
                  = processLevelResults req beh rest
                      (setAssoc acc n (failedRecord msg)) by
                simp [processLevelResults, hb, hrn]]
              exact heq
            · intro m hm
              rcases hdom m hm with hm2 | hm2
              · exact Or.inl (List.mem_cons_of_mem n hm2)
              · rcases lookupA_setAssoc_dom acc n m _ hm2 with rfl | hm3
                · exact Or.inl (List.mem_cons_self m rest)
                · exact Or.inr hm3

theorem execLevels_error (req : String → Bool) (beh : String → Except String Value) :
    ∀ (levels : List (List String)) (i : Nat) (acc : List (String × Value))
      (lvl : List String),
      levels.get? i = some lvl →
      (∀ m ∈ (levels.take i).flatten, ∀ msg, beh m = .error msg → req m = false) →
      (∃ n ∈ lvl, ∃ msg, beh n = .error msg ∧ req n = true) →
      ∃ id err acc2, execLevels req beh levels acc
          = .error ("Required node " ++ id ++ " failed: " ++ err, acc2)
        ∧ id ∈ lvl ∧ req id = true ∧ beh id = .error err
        ∧ (∀ m, lookupA acc2 m ≠ none →
            m ∈ (levels.take (i + 1)).flatten ∨ lookupA acc m ≠ none) := by
  intro levels
  induction levels with
  | nil => intro i acc lvl hget; simp at hget
  | cons l0 rest ih =>
      intro i acc lvl hget hclean hwit
      cases i with
      | zero =>
          rw [List.get?_cons_zero] at hget
          injection hget with hget
          subst hget
          obtain ⟨id, err, acc2, heq, hid, hrq, hbe, hdom⟩ :=
            processLevelResults_error req beh l0 acc hwit
          refine ⟨id, err, acc2, ?_, hid, hrq, hbe, ?_⟩
          · unfold execLevels
            rw [heq]
          · intro m hm
            rcases hdom m hm with hm2 | hm2
            · exact Or.inl (by simpa using hm2)
            · exact Or.inr hm2
      | succ j =>
          rw [List.get?_cons_succ] at hget
          have hclean0 : ∀ m ∈ l0, ∀ msg, beh m = .error msg → req m = false := by
            intro m hm msg hb
            refine hclean m ?_ msg hb
            rw [List.take_succ_cons, List.flatten_cons]
            exact List.mem_append_left _ hm
          obtain ⟨acc1, h1, _, h3⟩ := processLevelResults_ok req beh l0 acc hclean0
          have hcleanr : ∀ m ∈ (rest.take j).flatten, ∀ msg,
              beh m = .error msg → req m = false := by
            intro m hm msg hb
            refine hclean m ?_ msg hb
            rw [List.take_succ_cons, List.flatten_cons]
            exact List.mem_append_right _ hm
          obtain ⟨id, err, acc2, heq, hid, hrq, hbe, hdom⟩ :=
            ih j acc1 lvl hget hcleanr hwit
          refine ⟨id, err, acc2, ?_, hid, hrq, hbe, ?_⟩
          · unfold execLevels
            rw [h1]
            exact heq
          · intro m hm
            rw [List.take_succ_cons, List.flatten_cons]
            rcases hdom m hm with hm2 | hm2
            · exact Or.inl (List.mem_append_right _ hm2)
            · by_cases hml : m ∈ l0
              · exact Or.inl (List.mem_append_left _ hml)
              · rw [h3 m hml] at hm2
                exact Or.inr hm2

/-- Claim C2: (1) `_is_node_required` answers true exactly when the node's
`required` flag is true (the default when absent or when the node id is
unknown), or a declared workflow output references it, or it reaches such
a node along a path of edges; (2) when every failing node is non-required,
the run completes every level and records each failure in node_results as
the dict with "error" = the message and "status" = "failed" (successes as
their result); (3) when a level contains a failing required node (earlier
levels having only non-required failures), the run raises WorkflowError
for a failing required node of that level and no node of any subsequent
level acquires a node_results entry (no subsequent level executes); (4)
the engine's exception handler then sets the workflow status to FAILED.
The edge endpoints are required nonempty: that makes the planner's
success imply the edge relation is acyclic, so `_is_node_required`'s
unbounded recursion terminates and the fueled embedding is faithful (see
`emptyId_required_check_self_call` for the corner this excludes). -/
theorem required_node_failure_semantics
    (wf : WorkflowDefM) (beh : String → Except String Value)
    (plan : List (List String))
    (hplan : buildExecutionPlan (wf.nodes.map Prod.fst)
        (wf.edges.map (fun e => (e.source, e.target))) = .ok plan)
    (hne : ∀ e ∈ wf.edges, e.source ≠ "" ∧ e.target ≠ "")
    (hnodup : (wf.nodes.map Prod.fst).Nodup) :
    (∀ n, isRequiredB wf n = true ↔ ReqSpec wf n)
    ∧ ((∀ n ∈ plan.flatten, ∀ msg, beh n = .error msg → isRequiredB wf n = false) →
        ∃ results, executeWorkflowNodes wf beh = .ok (.ok results)
          ∧ ∀ n ∈ plan.flatten, lookupA results n = some (recordOf beh n))
    ∧ (∀ i lvl, plan.get? i = some lvl →
        (∀ m ∈ (plan.take i).flatten, ∀ msg,
            beh m = .error msg → isRequiredB wf m = false) →
        (∃ n ∈ lvl, ∃ msg, beh n = .error msg ∧ isRequiredB wf n = true) →
        ∃ id err partRes, executeWorkflowNodes wf beh
            = .ok (.error ("Required node " ++ id ++ " failed: " ++ err, partRes))
          ∧ id ∈ lvl ∧ isRequiredB wf id = true ∧ beh id = .error err
          ∧ ∀ m ∈ (plan.drop (i + 1)).flatten, lookupA partRes m = none)
    ∧ (∀ (st : EngineS) (eid wid msg : String),
        getWorkflowStatus (runFailurePath st eid wid msg) wid = some "failed") := by
  have hrun : executeWorkflowNodes wf beh
      = .ok (execLevels (isRequiredB wf) beh plan []) := by
    unfold executeWorkflowNodes
    rw [hplan]
  have hfnd : plan.flatten.Nodup :=
    (List.Perm.nodup_iff (buildExecutionPlan_ok_perm _ _ _ hplan)).mpr hnodup
  refine ⟨fun n => isRequiredB_iff wf n, ?_, ?_,
    fun st eid wid msg => by simp [getWorkflowStatus, runFailurePath, lookupA_setAssoc_self]⟩
  · intro hnoreq
    obtain ⟨results, h1, h2, _⟩ :=
      execLevels_ok (isRequiredB wf) beh plan [] hnoreq
    exact ⟨results, by rw [hrun, h1], h2⟩
  · intro i lvl hget hclean hwit
    obtain ⟨id, err, acc2, heq, hid, hrq, hbe, hdom⟩ :=
      execLevels_error (isRequiredB wf) beh plan i [] lvl hget hclean hwit
    refine ⟨id, err, acc2, by rw [hrun, heq], hid, hrq, hbe, ?_⟩
    intro m hm
    by_contra hne
    rcases hdom m hne with hm2 | hm2
    · have hsplit : plan.flatten
          = (plan.take (i + 1)).flatten ++ (plan.drop (i + 1)).flatten := by
        rw [← List.flatten_append, List.take_append_drop]
      rw [hsplit] at hfnd
      exact List.disjoint_of_nodup_append hfnd hm2 hm
    · exact hm2 (by simp [lookupA, List.find?])

/-- The behavior used by the C2 witness: node "a" fails, everything else
succeeds. -/
def behW (n : String) : Except String Value :=
  if n = "a" then .error "boom" else .ok (.i 1)

/-- The workflow used by the C2 witness: nodes a (non-required) and b
(required), one edge a -> b, no declared outputs. -/
def wfW : WorkflowDefM :=
  ⟨[("a", ⟨some false⟩), ("b", ⟨some true⟩)], [⟨"a", "b"⟩], []⟩

/-- Witness for C2 at a concrete workflow: its plan is [["a"], ["b"]]. -/
theorem required_node_failure_semantics_witness :
    (∀ n, isRequiredB wfW n = true ↔ ReqSpec wfW n)
    ∧ ((∀ n ∈ [["a"], ["b"]].flatten, ∀ msg,
          behW n = .error msg → isRequiredB wfW n = false) →
        ∃ results, executeWorkflowNodes wfW behW = .ok (.ok results)
          ∧ ∀ n ∈ [["a"], ["b"]].flatten,
              lookupA results n = some (recordOf behW n))
    ∧ (∀ i lvl, [["a"], ["b"]].get? i = some lvl →
        (∀ m ∈ ([["a"], ["b"]].take i).flatten, ∀ msg,
            behW m = .error msg → isRequiredB wfW m = false) →
        (∃ n ∈ lvl, ∃ msg, behW n = .error msg ∧ isRequiredB wfW n = true) →
        ∃ id err partRes, executeWorkflowNodes wfW behW
            = .ok (.error ("Required node " ++ id ++ " failed: " ++ err, partRes))
          ∧ id ∈ lvl ∧ isRequiredB wfW id = true ∧ behW id = .error err
          ∧ ∀ m ∈ ([["a"], ["b"]].drop (i + 1)).flatten,
              lookupA partRes m = none)
    ∧ (∀ (st : EngineS) (eid wid msg : String),
        getWorkflowStatus (runFailurePath st eid wid msg) wid = some "failed") :=
  required_node_failure_semantics wfW behW [["a"], ["b"]] (by rfl) (by decide)
    (by decide)

/-! ### Claim C8: validate_workflow returns all findings -/

/-- Modelled from the spec: section 4.2's `has_type(type_name) -> bool`,
true exactly when the registry binds the type name (the file cuts off
before `has_node_type` is defined; only its callers survive). -/
def hasNodeType (reg : List (String × NodeClassM)) (t : String) : Bool :=
  (lookupA reg t).isSome

/-- Modelled from the spec: the registry lookup of the bound node class
(`get_node_class`), Some exactly when `has_type` holds. -/
def getNodeClass (reg : List (String × NodeClassM)) (t : String) :
    Option NodeClassM :=
  lookupA reg t

theorem hasNodeType_eq_isSome (reg : List (String × NodeClassM)) (t : String) :
    hasNodeType reg t = (getNodeClass reg t).isSome := rfl

/-- A node definition as the validator reads it: the optional `type`
field and the `config` dict (default empty). -/
structure NodeDefV where
  type : Option String
  config : Value

/-- A connection dict with its optional `from` and `to` fields. -/
structure ConnV where
  fromSpec : Option String
  toSpec : Option String

/-- Python truthiness of an optional string field: absent or empty is
falsy. -/
def falsyOpt : Option String → Bool
  | none => true
  | some s => s = ""

/-- `s.split(sep, 1)`: the part before the first separator and the rest,
or None when the separator does not occur. -/
def splitFirst (sep : Char) : List Char → Option (List Char × List Char)
  | [] => none
  | c :: cs =>
      if c = sep then some ([], cs)
      else
        match splitFirst sep cs with
        | none => none
        | some (a, b) => some (c :: a, b)

/-- How a f-string renders the target id: `None` for Python None. -/
def renderOpt : Option String → String
  | none => "None"
  | some s => s

/-- `_validate_nodes`, one node (lines 138-172): missing type, unknown
type (`has_node_type` false, i.e. no bound class), an instantiation
exception, a validate_config exception (WorkflowValidationError), or
validate_config returning False. -/
def validateNode (reg : List (String × NodeClassM)) (nid : String)
    (nd : NodeDefV) : List String :=
  match nd.type with
  | none => ["Node '" ++ nid ++ "' is missing 'type' attribute"]
  | some t =>
      match getNodeClass reg t with
      | none => ["Node '" ++ nid ++ "' has unknown type: '" ++ t ++ "'"]
      | some cls =>
          match cls.instantiate nid nd.config with
          | .error msg =>
              ["Error instantiating node '" ++ nid ++ "' of type '" ++ t
                ++ "' for validation: " ++ msg]
          | .ok inst =>
              match inst.validateCfg with
              | .error msg => ["Node '" ++ nid ++ "' config error: " ++ msg]
              | .ok false =>
                  ["Node '" ++ nid ++ "' config validation failed (returned False)"]
              | .ok true => []

/-- The `for node_id, node_def in nodes.items()` loop of `_validate_nodes`,
accumulating each node's findings in order. -/
def validateNodes (reg : List (String × NodeClassM)) :
    List (String × NodeDefV) → List String
  | [] => []
  | (nid, nd) :: rest => validateNode reg nid nd ++ validateNodes reg rest

/-- One iteration of the `_validate_connections` loop (lines 190-209):
the label is 1-based; a falsy `from` or `to` short-circuits; otherwise the
source id is the part before the first dot, the target is split into id
and input name (both None when the spec has no dot), and each failed check
appends its message. (The node-instantiation loop above it swallows every
exception and contributes no findings.) -/
def validateConnection (nodeIds : List String) (i : Nat) (conn : ConnV) :
    List String :=
  let label := "Connection #" ++ toString (i + 1)
  if falsyOpt conn.fromSpec || falsyOpt conn.toSpec then
    [label ++ " missing 'from' or 'to' attributes."]
  else
    let src := conn.fromSpec.getD ""
    let tgt := conn.toSpec.getD ""
    let sourceNodeId :=
      match splitFirst (Char.ofNat 46) src.data with
      | none => src
      | some (a, _) => String.mk a
    let targetParts : Option String × Option String :=
      match splitFirst (Char.ofNat 46) tgt.data with
      | none => (none, none)
      | some (a, b) => (some (String.mk a), some (String.mk b))
    (if nodeIds.contains sourceNodeId then []
      else [label ++ " references non-existent source node: '" ++ sourceNodeId ++ "'."])
    ++ (if falsyOpt targetParts.1 || !(nodeIds.contains (targetParts.1.getD "")) then
          [label ++ " references non-existent target node: '"
            ++ renderOpt targetParts.1 ++ "'."]
        else [])
    ++ (if falsyOpt targetParts.2 then
          [label ++ " target '" ++ tgt
            ++ "' must specify input name with format 'node_id.input_name'."]
        else [])

/-- The indexed `for i, conn in enumerate(connections)` loop. -/
def validateConnGo (nodeIds : List String) : Nat → List ConnV → List String
  | _, [] => []
  | i, c :: cs => validateConnection nodeIds i c ++ validateConnGo nodeIds (i + 1) cs

/-- `_validate_connections` (lines 174-211). -/
def validateConnections (nodeIds : List String) (conns : List ConnV) :
    List String :=
  validateConnGo nodeIds 0 conns

/-- `graph[source_node_id].append(target_node_id)`: append to the entry
when the key exists, else no-op (the `source_node_id in graph` guard). -/
def appendAdj : List (String × List String) → String → String →
    List (String × List String)
  | [], _, _ => []
  | (k, vs) :: rest, s, t =>
      if k = s then (k, vs ++ [t]) :: rest
      else (k, vs) :: appendAdj rest s t

/-- The graph-building loop of `_check_for_cycles` (lines 213-227): skip
falsy specs; the source id is the part before the first dot (or the whole
spec), the target id is the part before the first dot or None when the
spec has no dot; record the edge when the source is a graph key and the
target id is truthy. -/
def addConnEdge (g : List (String × List String)) (c : ConnV) :
    List (String × List String) :=
  if falsyOpt c.fromSpec || falsyOpt c.toSpec then g
  else
    let src := c.fromSpec.getD ""
    let tgt := c.toSpec.getD ""
    let sourceNodeId :=
      match splitFirst (Char.ofNat 46) src.data with
      | none => src
      | some (a, _) => String.mk a
    let targetNodeId : Option String :=
      match splitFirst (Char.ofNat 46) tgt.data with
      | none => none
      | some (a, _) => some (String.mk a)
    match targetNodeId with
    | none => g
    | some t2 => if t2 = "" then g else appendAdj g sourceNodeId t2

/-- The adjacency dict `_check_for_cycles` builds before its DFS. -/
def buildValidatorGraph (nodes : List (String × NodeDefV))
    (conns : List ConnV) : List (String × List String) :=
  conns.foldl addConnEdge (nodes.map (fun p => (p.1, [])))

/-- `" -> ".join(path)`. -/
def joinArrow : List String → String
  | [] => ""
  | [x] => x
  | x :: y :: rest => x ++ " -> " ++ joinArrow (y :: rest)

/-- `validate_workflow` (lines 115-135): the empty-nodes finding alone;
else the node findings alone when any exist; else the connection findings
followed by the caught WorkflowCycleError message when the DFS raises
one. -/
def validateWorkflow (reg : List (String × NodeClassM))
    (nodes : List (String × NodeDefV)) (conns : List ConnV) : List String :=
  if nodes.isEmpty then ["Workflow must have at least one node"]
  else
    let nodeErrors := validateNodes reg nodes
    if !nodeErrors.isEmpty then nodeErrors
    else
      validateConnections (nodes.map Prod.fst) conns
      ++ (match checkForCycles (nodes.map Prod.fst)
            (buildValidatorGraph nodes conns) with
          | .ok _ => []
          | .error cyc => ["Workflow contains a cycle: " ++ joinArrow cyc])

theorem validateConnGo_mem (nodeIds : List String) :
    ∀ (conns : List ConnV) (j i : Nat) (c : ConnV),
      conns.get? i = some c →
      ∀ m ∈ validateConnection nodeIds (j + i) c,
        m ∈ validateConnGo nodeIds j conns := by
  intro conns
  induction conns with
  | nil => intro j i c hget; simp at hget
  | cons c0 cs ih =>
      intro j i c hget m hm
      cases i with
      | zero =>
          rw [List.get?_cons_zero] at hget
          injection hget with hget
          subst hget
          unfold validateConnGo
          exact List.mem_append_left _ hm
      | succ i2 =>
          rw [List.get?_cons_succ] at hget
          unfold validateConnGo
          refine List.mem_append_right _ (ih (j + 1) i2 c hget m ?_)
          have : j + 1 + i2 = j + (i2 + 1) := by omega
          rw [this]
          exact hm

/-- Claim C8: `validate_workflow` is a total function into a findings
list (the cycle check's WorkflowCycleError is caught and appended, so it
never raises): with no nodes it returns just the empty-workflow finding;
when any node-level finding exists it returns exactly the node findings
(no connection or cycle check contributes); otherwise it returns the
connection findings followed by the caught cycle message when the DFS
raises one, and every finding of every connection appears in the returned
list. -/
theorem validateWorkflow_returns_all_findings :
    ∀ (reg : List (String × NodeClassM)) (nodes : List (String × NodeDefV))
      (conns : List ConnV),
      (nodes = [] →
        validateWorkflow reg nodes conns = ["Workflow must have at least one node"])
      ∧ (nodes ≠ [] → validateNodes reg nodes ≠ [] →
          validateWorkflow reg nodes conns = validateNodes reg nodes)
      ∧ (nodes ≠ [] → validateNodes reg nodes = [] →
          validateWorkflow reg nodes conns
            = validateConnections (nodes.map Prod.fst) conns
              ++ match checkForCycles (nodes.map Prod.fst)
                    (buildValidatorGraph nodes conns) with
                 | .ok _ => []
                 | .error cyc => ["Workflow contains a cycle: " ++ joinArrow cyc])
      ∧ (nodes ≠ [] → validateNodes reg nodes = [] →
          ∀ i c, conns.get? i = some c →
            ∀ m ∈ validateConnection (nodes.map Prod.fst) i c,
              m ∈ validateWorkflow reg nodes conns) := by
  intro reg nodes conns
  refine ⟨?_, ?_, ?_, ?_⟩
  · intro h
    subst h
    simp [validateWorkflow]
  · intro hne hn
    simp [validateWorkflow, List.isEmpty_iff, hne, hn]
  · intro hne hn
    simp [validateWorkflow, List.isEmpty_iff, hne, hn]
  · intro hne hn i c hget m hm
    have h3 : validateWorkflow reg nodes conns
        = validateConnections (nodes.map Prod.fst) conns
          ++ match checkForCycles (nodes.map Prod.fst)
                (buildValidatorGraph nodes conns) with
             | .ok _ => []
             | .error cyc => ["Workflow contains a cycle: " ++ joinArrow cyc] := by
      simp [validateWorkflow, List.isEmpty_iff, hne, hn]
    rw [h3]
    refine List.mem_append_left _ ?_
    exact validateConnGo_mem (nodes.map Prod.fst) conns 0 i c hget m (by simpa using hm)

/-- `_is_node_required(n)`'s body reaches a recursive call on `m` exactly
when its two stopping checks fail (flag falsy, no output reference) and
an edge n -> m is recorded. -/
def reqCall (wf : WorkflowDefM) (n m : String) : Prop :=
  nodeRequiredFlag wf n = false
  ∧ wf.outputs.any (fun o => o.2.node == some n) = false
  ∧ ∃ e ∈ wf.edges, e.source = n ∧ e.target = m

/-- The workflow of the C2 counterexample: node "" marked required: False
and the self-edge "" -> "". -/
def wfD : WorkflowDefM :=
  ⟨[("a", ⟨some true⟩), ("", ⟨some false⟩)], [⟨"", ""⟩], []⟩

/-- Claim C2, counterexample: with an empty-string node id the planner
drops the self-edge "" -> "" and still produces a plan, yet when any node
of that plan fails, the run's required-check on "" recurses on "" itself
(the flag is False, no output references it, and the edge loop calls
`_is_node_required("")` again with nothing to stop it): Python hits
RecursionError, not the behavior the claim describes; in the fueled model
the check answers false at every fuel, the value being fixed by fuel
exhaustion alone. Hence the amended claim requires nonempty edge
endpoints. -/
theorem emptyId_required_check_self_call :
    buildExecutionPlan (wfD.nodes.map Prod.fst)
        (wfD.edges.map (fun e => (e.source, e.target))) = .ok [["a", ""]]
    ∧ reqCall wfD "" ""
    ∧ ∀ fuel, isNodeRequired wfD fuel "" = false := by
  refine ⟨rfl, ⟨rfl, rfl, ⟨⟨"", ""⟩, by simp [wfD], rfl, rfl⟩⟩, ?_⟩
  intro fuel
  induction fuel with
  | zero => rfl
  | succ fuel ih =>
      unfold isNodeRequired
      simpa [wfD, nodeRequiredFlag, lookupA, List.find?] using ih
